import Mathlib

/-!
# Verification of the neuroBN BayesNet data model and MAP solvers

Shallow embedding of `neuroBN/classes/bayesnet.py` and
`neuroBN/inference/map_exact.py` (Python 2), together with proofs about the
CPT stride/index scheme, moralization, graph mutators and the MAP solver
orchestration.

Conventions of the embedding:
* Python strings are Lean `String`s; rationals stand in for Python floats.
* A Python `dict` is an association list `List (key × value)`; `dict[k]`
  lookup is `List.lookup`, and a `KeyError` is modelled with `Option` /
  `Except` where a claim is about the error, and by a `getD` default where a
  theorem hypothesis guarantees the key is present.
* A Python `set` of CPT indices is represented by the ascending list of its
  elements (Python's `list(s)` order for a `set` is unspecified; all
  statements proved below are insensitive to that order or are singletons).
* A `while` loop that may diverge is given explicit fuel and returns
  `Option`, with `none` meaning the Python loop would not terminate.
-/

namespace NeuroBN

/-- The per-variable record stored in `BayesNet.F`:
`{'parents': [...], 'values': [...], 'cpt': [...]}`. -/
structure FData where
  parents : List String
  values : List String
  cpt : List Rat
deriving Repr, DecidableEq, Inhabited

/-- An instantiated `BayesNet` object (after `set_structure` or manual
construction): `V` the vertex list, `E` the child-adjacency dict,
`F` the factor-data dict. -/
structure BN where
  V : List String
  E : List (String × List String)
  F : List (String × FData)
deriving Repr, DecidableEq, Inhabited

/-- Lookup `self.F[rv]` with a default record; theorems about code paths that would
raise `KeyError` assume `rv` is a key of `F`. -/
def fdata (bn : BN) (rv : String) : FData :=
  (bn.F.lookup rv).getD default

/-- Method `parents`: `self.F[rv]['parents']`. -/
def parents (bn : BN) (rv : String) : List String :=
  (fdata bn rv).parents

/-- Method `values`: `self.F[rv]['values']`. -/
def values (bn : BN) (rv : String) : List String :=
  (fdata bn rv).values

/-- Method `cpt`: `self.F[rv]['cpt']`. -/
def cpt (bn : BN) (rv : String) : List Rat :=
  (fdata bn rv).cpt

/-- Method `card`: `len(self.F[rv]['values'])`. -/
def card (bn : BN) (rv : String) : Nat :=
  (values bn rv).length

/-- Method `scope`: `[rv] + parents(rv)`. -/
def scope (bn : BN) (rv : String) : List String :=
  rv :: parents bn rv

/-- Method `children`: `self.E[rv]`, defaulting to `[]`; code paths raising
`KeyError` are excluded by hypotheses where this is used. -/
def childrenD (bn : BN) (rv : String) : List String :=
  (bn.E.lookup rv).getD []

/-- Method `has_edge(u, v)`: `u in self.E[v]`; `none` models the `KeyError` raised
when `v` is not a key of `E`.  Note the lookup direction: the *second*
argument is the dict key. -/
def has_edge (bn : BN) (u v : String) : Option Bool :=
  (bn.E.lookup v).map (fun ch => u ∈ ch)

/-- Method `edges()`: the generator yields `(u, v)` for `u` in `V` and
`v` in `children(u)`. -/
def edgesList (bn : BN) : List (String × String) :=
  bn.V.flatMap (fun u => (childrenD bn u).map (fun v => (u, v)))

/-- Method `node_idx(rv)`: `V.index(rv)`, with the caught `ValueError` mapped to the
sentinel `-1`. -/
def node_idx (bn : BN) (rv : String) : Int :=
  match bn.V.indexOf? rv with
  | some i => (i : Int)
  | none => -1

/-- Method `value_idx(rv, val)`: `F[rv]['values'].index(val)`, with the caught
`ValueError` branch (which also executes `print "Value Index Error"`)
mapped to the sentinel `-1`. -/
def value_idx (bn : BN) (rv : String) (val : String) : Int :=
  match (values bn rv).indexOf? val with
  | some i => (i : Int)
  | none => -1

/-- Method `stride(rv, n)` in exact integer arithmetic: returns `1` when
`n == rv`, otherwise `prod(card_list[0 : parents.index(n) + 1])` where
`card_list = [card(rv)] + [card(p) for p in parents(rv)]`;
`none` models the uncaught `ValueError` of `parents(rv).index(n)`.
This is the idealized reading of `int(np.prod(...))`: numpy's integer
reduction actually runs in the platform dtype int64 and wraps modulo 2^64.
`stride64` below is the bit-faithful version, and `stride64_agrees` shows
the two coincide whenever the product stays below 2^63; the `cpt_indices`
machinery is stated over this exact reading, whose
`len(cpt) = Π card(scope)` hypothesis makes every stride it consults a
divisor of `len(cpt)`, so the two readings coincide there on every table
realizable as a CPython list (whose length is below 2^63). -/
def stride (bn : BN) (rv n : String) : Option Nat :=
  if n = rv then some 1
  else
    ((parents bn rv).indexOf? n).map (fun i =>
      ((card bn rv :: (parents bn rv).map (card bn)).take (i + 1)).prod)

/-- The Python int that `int(x)` yields for a numpy int64 `x` holding the
reduction of a product of nonnegative ints: the product is taken modulo
2^64 and read back as a signed two's-complement integer.  Wrapping each
intermediate multiplication (as the int64 dtype actually does) and wrapping
only the final product agree, because reduction modulo 2^64 commutes with
multiplication. -/
def int64OfNat (n : Nat) : Int :=
  if n % 2 ^ 64 < 2 ^ 63 then ((n % 2 ^ 64 : Nat) : Int)
  else ((n % 2 ^ 64 : Nat) : Int) - 2 ^ 64

/-- Method `stride(rv, n)`, bit-faithful: returns the plain Python int `1`
when `n == rv` (no numpy involved on that branch), otherwise
`int(np.prod(card_list[0 : parents.index(n) + 1]))` where `np.prod` reduces
in the default platform integer dtype int64 and therefore wraps modulo 2^64
with a signed result; `none` models the uncaught `ValueError` of
`parents(rv).index(n)`. -/
def stride64 (bn : BN) (rv n : String) : Option Int :=
  if n = rv then some 1
  else
    ((parents bn rv).indexOf? n).map (fun i =>
      int64OfNat (((card bn rv :: (parents bn rv).map (card bn)).take (i + 1)).prod))

end NeuroBN

namespace NeuroBN

/-! ## The `cpt_indices` embedding -/

/-- Python `range(lo, hi)` over ints. -/
def intRange (lo hi : Int) : List Int :=
  (List.range (hi - lo).toNat).map (fun k : Nat => lo + (k : Int))

/-- The `while s_idx < len(self.cpt(target))` loop of `cpt_indices`: starting
from `s_idx`, repeatedly extend the accumulator with
`range(s_idx, s_idx + stride)` and advance `s_idx` by `stride * card`.
`step` is `stride[rv] * card[rv]`, `width` is `stride[rv]`.  The loop gets
explicit fuel; `none` models Python divergence, which happens exactly when
`step == 0` and the loop is entered. -/
def strideWhile (lenC step width : Int) : Nat → Int → List Int → Option (List Int)
  | 0, sIdx, acc => if sIdx < lenC then none else some acc
  | fuel + 1, sIdx, acc =>
    if sIdx < lenC then
      strideWhile lenC step width fuel (sIdx + step) (acc ++ intRange sIdx (sIdx + width))
    else some acc

/-- The candidate index list `rv_idx` built for one constrained variable in
`cpt_indices`: `s_idx` starts at `val_idx * stride` and the while loop runs.
Fuel `len + 2` suffices whenever `stride * card ≥ 1` (see
`rvPattern_char`). -/
def rvPattern (lenC width c valIdx : Int) : Option (List Int) :=
  strideWhile lenC (width * c) width (lenC.toNat + 2) (valIdx * width) []

/-- One iteration of the `for rv, val in val_dict.items()` loop of
`cpt_indices`: build the candidate list for `nv` and intersect the running
index set with it.  The `stride[rv]` / `card[rv]` dict lookups raise
`KeyError` (`none`) when `nv.1` is outside `scope(target)`. -/
def cptStep (bn : BN) (target : String)
    (acc : Option (List Nat)) (nv : String × String) : Option (List Nat) := do
  let idxs ← acc
  if nv.1 ∈ scope bn target then
    let w : Int := ((stride bn target nv.1).getD 0 : Nat)
    let pat ← rvPattern ((cpt bn target).length : Int) w
      ((card bn nv.1 : Nat) : Int) (value_idx bn nv.1 nv.2)
    pure (idxs.filter (fun i => (i : Int) ∈ pat))
  else none

/-- Method `cpt_indices(target, val_dict)`: start from `set(range(len(cpt)))` and,
for each `(rv, val)` in `val_dict`, intersect with that variable's candidate
list.  The running index set is kept as an ascending `List Nat`.  `none`
models either the `KeyError` of `stride[rv]` (a key outside
`scope(target)`) or divergence of the while loop. -/
def cptIndices (bn : BN) (target : String)
    (valDict : List (String × String)) : Option (List Nat) :=
  valDict.foldl (cptStep bn target)
    (some (List.range (cpt bn target).length))

/-! ## Mixed-radix arithmetic

The stride scheme of the data model is the mixed-radix positional system
whose digit list (fastest-varying first) is indexed by the scope and whose
radix list is the scope's cardinalities. -/

/-- Mixed-radix encoding of a digit list `ds` with radices `cs`
(fastest-varying digit first). -/
def mrEncode : List Nat → List Nat → Nat
  | d :: ds, c :: cs => d + c * mrEncode ds cs
  | _, _ => 0

/-- Mixed-radix digits of `i` for radices `cs`. -/
def mrDigits : Nat → List Nat → List Nat
  | _, [] => []
  | i, c :: cs => (i % c) :: mrDigits (i / c) cs

theorem mrEncode_lt : ∀ {ds cs : List Nat}, List.Forall₂ (· < ·) ds cs →
    mrEncode ds cs < cs.prod := by
  intro ds cs h
  induction h with
  | nil => simp [mrEncode]
  | @cons d c ds cs hdc _ ih =>
    simp only [mrEncode, List.prod_cons]
    calc d + c * mrEncode ds cs < c + c * mrEncode ds cs := by omega
      _ = c * (mrEncode ds cs + 1) := by ring
      _ ≤ c * cs.prod := Nat.mul_le_mul_left c (by omega)

theorem mrDigits_length : ∀ (i : Nat) (cs : List Nat),
    (mrDigits i cs).length = cs.length := by
  intro i cs
  induction cs generalizing i with
  | nil => simp [mrDigits]
  | cons c cs ih => simp [mrDigits, ih]

theorem mrDigits_lt : ∀ (i : Nat) {cs : List Nat}, (∀ c ∈ cs, 0 < c) →
    List.Forall₂ (· < ·) (mrDigits i cs) cs := by
  intro i cs h
  induction cs generalizing i with
  | nil => exact List.Forall₂.nil
  | cons c cs ih =>
    exact List.Forall₂.cons
      (Nat.mod_lt _ (h c (by simp)))
      (ih _ (fun x hx => h x (by simp [hx])))

theorem mrEncode_mrDigits : ∀ (i : Nat) {cs : List Nat}, i < cs.prod →
    mrEncode (mrDigits i cs) cs = i := by
  intro i cs h
  induction cs generalizing i with
  | nil =>
    simp only [List.prod_nil, Nat.lt_one_iff] at h
    subst h
    rfl
  | cons c cs ih =>
    simp only [mrDigits, mrEncode]
    have hc : 0 < c := by
      rcases Nat.eq_zero_or_pos c with rfl | hc
      · simp at h
      · exact hc
    have : i / c < cs.prod := by
      rw [Nat.div_lt_iff_lt_mul hc]
      calc i < (c :: cs).prod := h
        _ = cs.prod * c := by rw [List.prod_cons]; ring
    rw [ih _ this]
    exact Nat.mod_add_div i c

/-- Digit extraction: the `j`-th digit of an encoded number is recovered by
dividing by the prefix product of the first `j` radices and reducing mod the
`j`-th radix. -/
theorem mrEncode_digit : ∀ {ds cs : List Nat}, List.Forall₂ (· < ·) ds cs →
    ∀ j, j < cs.length →
      (mrEncode ds cs / ((cs.take j).prod)) % cs.getD j 1 = ds.getD j 0 := by
  intro ds cs h
  induction h with
  | nil => intro j hj; simp at hj
  | @cons d c ds cs hdc htl ih =>
    intro j hj
    match j with
    | 0 =>
      simp only [List.take_zero, List.prod_nil, Nat.div_one, List.getD_cons_zero]
      rw [mrEncode, Nat.add_mul_mod_self_left, Nat.mod_eq_of_lt hdc]
    | j + 1 =>
      simp only [List.take_succ_cons, List.prod_cons, List.getD_cons_succ]
      rw [mrEncode]
      have hc : 0 < c := Nat.zero_lt_of_lt hdc
      have hstep : (d + c * mrEncode ds cs) / (c * (cs.take j).prod)
          = mrEncode ds cs / (cs.take j).prod := by
        rw [← Nat.div_div_eq_div_mul, Nat.add_mul_div_left _ _ hc,
          Nat.div_eq_of_lt hdc, Nat.zero_add]
      rw [hstep]
      exact ih j (by simpa using hj)

/-- Injectivity of the mixed-radix encoding on in-range digit lists. -/
theorem mrEncode_inj : ∀ {ds ds' cs : List Nat},
    List.Forall₂ (· < ·) ds cs → List.Forall₂ (· < ·) ds' cs →
    mrEncode ds cs = mrEncode ds' cs → ds = ds' := by
  intro ds ds' cs h
  induction h generalizing ds' with
  | nil =>
    intro h' _
    cases h'
    rfl
  | @cons d c ds cs hdc htl ih =>
    intro h' heq
    cases h' with
    | cons hdc' htl' =>
      rename_i d' ds'
      rw [mrEncode, mrEncode] at heq
      have hd : d = d' := by
        have h1 := congrArg (· % c) heq
        simpa [Nat.add_mul_mod_self_left, Nat.mod_eq_of_lt hdc,
          Nat.mod_eq_of_lt hdc'] using h1
      subst hd
      have hc : 0 < c := Nat.zero_lt_of_lt hdc
      have htail : mrEncode ds cs = mrEncode ds' cs := by
        have := congrArg (· / c) heq
        simpa [Nat.add_mul_div_left _ _ hc, Nat.div_eq_of_lt hdc] using this
      rw [ih htl' htail]

/-! ## Characterizing the while loop of `cpt_indices` -/

theorem intRange_mem (lo hi x : Int) : x ∈ intRange lo hi ↔ lo ≤ x ∧ x < hi := by
  simp only [intRange, List.mem_map, List.mem_range]
  constructor
  · rintro ⟨k, hk, rfl⟩
    omega
  · rintro ⟨h1, h2⟩
    exact ⟨(x - lo).toNat, by omega, by omega⟩

theorem strideWhile_isSome (lenC step width : Int) :
    ∀ (fuel : Nat) (sIdx : Int) (acc : List Int),
      lenC ≤ sIdx + (fuel : Int) * step →
      ∃ l, strideWhile lenC step width fuel sIdx acc = some l := by
  intro fuel
  induction fuel with
  | zero =>
    intro s acc h
    rw [strideWhile, if_neg (by push_cast at h; omega)]
    exact ⟨acc, rfl⟩
  | succ fuel ih =>
    intro s acc h
    rw [strideWhile]
    by_cases hs : s < lenC
    · rw [if_pos hs]
      apply ih
      have hcast : ((fuel + 1 : Nat) : Int) * step = (fuel : Int) * step + step := by
        push_cast
        ring
      omega
    · rw [if_neg hs]
      exact ⟨acc, rfl⟩

theorem strideWhile_mem (lenC step width : Int) (hstep : 0 < step) :
    ∀ (fuel : Nat) (sIdx : Int) (acc l : List Int),
      strideWhile lenC step width fuel sIdx acc = some l →
      ∀ x : Int, x ∈ l ↔ x ∈ acc ∨ ∃ k : Nat,
        sIdx + (k : Int) * step ≤ x ∧ x < sIdx + (k : Int) * step + width ∧
        sIdx + (k : Int) * step < lenC := by
  intro fuel
  induction fuel with
  | zero =>
    intro s acc l h x
    rw [strideWhile] at h
    by_cases hs : s < lenC
    · rw [if_pos hs] at h
      exact absurd h (by simp)
    · rw [if_neg hs] at h
      obtain rfl : acc = l := Option.some.inj h
      constructor
      · exact Or.inl
      · rintro (hx | ⟨k, h1, h2, h3⟩)
        · exact hx
        · exfalso
          have hk : (0 : Int) ≤ (k : Int) * step := by positivity
          omega
  | succ fuel ih =>
    intro s acc l h x
    rw [strideWhile] at h
    by_cases hs : s < lenC
    · rw [if_pos hs] at h
      rw [ih _ _ _ h x, List.mem_append, intRange_mem]
      constructor
      · rintro ((hacc | hr) | ⟨k, h1, h2, h3⟩)
        · exact Or.inl hacc
        · exact Or.inr ⟨0, by simpa using hr.1, by simpa using hr.2, by simpa using hs⟩
        · refine Or.inr ⟨k + 1, ?_, ?_, ?_⟩ <;>
          · have hcast : ((k + 1 : Nat) : Int) * step = (k : Int) * step + step := by
              push_cast
              ring
            omega
      · rintro (hacc | ⟨k, h1, h2, h3⟩)
        · exact Or.inl (Or.inl hacc)
        · match k with
          | 0 =>
            refine Or.inl (Or.inr ⟨by simpa using h1, by simpa using h2⟩)
          | k + 1 =>
            refine Or.inr ⟨k, ?_, ?_, ?_⟩ <;>
            · have hcast : ((k + 1 : Nat) : Int) * step = (k : Int) * step + step := by
                push_cast
                ring
              omega
    · rw [if_neg hs] at h
      obtain rfl : acc = l := Option.some.inj h
      constructor
      · exact Or.inl
      · rintro (hx | ⟨k, h1, h2, h3⟩)
        · exact hx
        · exfalso
          have hk : (0 : Int) ≤ (k : Int) * step := by positivity
          omega

/-- Arithmetic core of the stride pattern: for positive `width` and `c`, an
index `i` falls in the periodic block family of digit `v` exactly when its
`v`-th mixed-radix digit at that stride is `v`. -/
theorem mod_div_char (width c v i : Nat) (hw : 0 < width) (hv : v < c) :
    (∃ k : Nat, (v + k * c) * width ≤ i ∧ i < (v + k * c) * width + width) ↔
      (i / width) % c = v := by
  constructor
  · rintro ⟨k, h1, h2⟩
    have hq : i / width = v + k * c := by
      apply Nat.div_eq_of_lt_le h1
      calc i < (v + k * c) * width + width := h2
        _ = ((v + k * c) + 1) * width := by ring
    rw [hq, Nat.add_mul_mod_self_right, Nat.mod_eq_of_lt hv]
  · intro h
    refine ⟨(i / width) / c, ?_, ?_⟩
    · have hq : v + (i / width) / c * c = i / width := by
        conv_rhs => rw [← Nat.mod_add_div (i / width) c]
        rw [h]
        ring
      rw [hq]
      exact Nat.div_mul_le_self i width
    · have hq : v + (i / width) / c * c = i / width := by
        conv_rhs => rw [← Nat.mod_add_div (i / width) c]
        rw [h]
        ring
      rw [hq]
      have hdm := Nat.div_add_mod i width
      have hlt : i % width < width := Nat.mod_lt i hw
      have hcomm : i / width * width = width * (i / width) := Nat.mul_comm _ _
      omega

/-- The candidate list built for a constrained variable with a valid value:
it is defined (`some`), and an in-range index belongs to it exactly when its
digit at that stride equals the value's index. -/
theorem rvPattern_char (len width c v : Nat) (hw : 0 < width) (hv : v < c) :
    ∃ l, rvPattern (len : Int) (width : Int) (c : Int) (v : Int) = some l ∧
      ∀ i : Nat, i < len → (((i : Int) ∈ l) ↔ (i / width) % c = v) := by
  have hc : 0 < c := Nat.zero_lt_of_lt hv
  have hstep : (0 : Int) < (width : Int) * (c : Int) := by positivity
  have htn : ((len : Int)).toNat = len := Int.toNat_natCast len
  have hterm : (len : Int) ≤ (v : Int) * (width : Int) +
      ((len + 2 : Nat) : Int) * ((width : Int) * (c : Int)) := by
    have h1 : (0 : Int) ≤ (v : Int) * (width : Int) := by positivity
    have hwc1 : (1 : Int) ≤ (width : Int) * (c : Int) := by omega
    have h2 : ((len + 2 : Nat) : Int) * 1 ≤
        ((len + 2 : Nat) : Int) * ((width : Int) * (c : Int)) :=
      mul_le_mul_of_nonneg_left hwc1 (by positivity)
    push_cast at h2 ⊢
    omega
  obtain ⟨l, hl⟩ := strideWhile_isSome (len : Int) ((width : Int) * (c : Int))
    (width : Int) (len + 2) ((v : Int) * (width : Int)) [] hterm
  have hrv : rvPattern (len : Int) (width : Int) (c : Int) (v : Int)
      = strideWhile (len : Int) ((width : Int) * (c : Int)) (width : Int)
          (len + 2) ((v : Int) * (width : Int)) [] := by
    rw [rvPattern, htn]
  refine ⟨l, hrv ▸ hl, ?_⟩
  intro i hi
  rw [strideWhile_mem _ _ _ hstep _ _ _ _ hl (i : Int)]
  simp only [List.not_mem_nil, false_or]
  rw [← mod_div_char width c v i hw hv]
  constructor
  · rintro ⟨k, h1, h2, _⟩
    have hcast : (v : Int) * (width : Int) + (k : Int) * ((width : Int) * (c : Int))
        = (((v + k * c) * width : Nat) : Int) := by
      push_cast
      ring
    rw [hcast] at h1 h2
    exact ⟨k, by exact_mod_cast h1, by exact_mod_cast h2⟩
  · rintro ⟨k, h1, h2⟩
    have hcast : (v : Int) * (width : Int) + (k : Int) * ((width : Int) * (c : Int))
        = (((v + k * c) * width : Nat) : Int) := by
      push_cast
      ring
    refine ⟨k, ?_, ?_, ?_⟩
    · rw [hcast]
      exact_mod_cast h1
    · rw [hcast]
      exact_mod_cast h2
    · rw [hcast]
      have h3 : ((((v + k * c) * width : Nat) : Int)) ≤ (i : Int) := by exact_mod_cast h1
      omega

/-! ## List helpers -/

theorem indexOf?_eq_some_of_mem {l : List String} {a : String} (h : a ∈ l) :
    l.indexOf? a = some (l.indexOf a) := by
  induction l with
  | nil => simp at h
  | cons x xs ih =>
    rw [List.indexOf?_cons, List.indexOf_cons]
    by_cases hx : x = a
    · simp [hx]
    · have hbeq : (x == a) = false := by simp [hx]
      have hmem : a ∈ xs := by
        rcases List.mem_cons.mp h with h' | h'
        · exact absurd h'.symm hx
        · exact h'
      rw [hbeq]
      simp only [Bool.false_eq_true, if_false, cond_false]
      rw [ih hmem]
      rfl

theorem indexOf_getElem_of_nodup {α : Type} [DecidableEq α] {l : List α}
    (hnd : l.Nodup) (j : Nat) (hj : j < l.length) :
    l.indexOf l[j] = j := by
  have hmem : l[j] ∈ l := List.getElem_mem hj
  have hlt := List.indexOf_lt_length.mpr hmem
  have hg : l[l.indexOf l[j]] = l[j] := List.getElem_indexOf hlt
  exact (List.Nodup.getElem_inj_iff hnd).mp hg

theorem filter_range_single (n m : Nat) (h : m < n) :
    (List.range n).filter (fun i => decide (i = m)) = [m] := by
  induction n with
  | zero => omega
  | succ n ih =>
    rw [List.range_succ, List.filter_append]
    by_cases hm : m < n
    · rw [ih hm]
      have hne : n ≠ m := by omega
      simp [hne]
    · have hm' : m = n := by omega
      subst hm'
      have hnil : (List.range m).filter (fun i => decide (i = m)) = [] := by
        rw [List.filter_eq_nil_iff]
        intro a ha
        simp only [List.mem_range] at ha
        simp only [decide_eq_true_eq]
        omega
      simp [hnil]

theorem mrDigits_getD : ∀ (cs : List Nat) (i j : Nat), j < cs.length →
    (mrDigits i cs).getD j 0 = (i / (cs.take j).prod) % cs.getD j 1 := by
  intro cs
  induction cs with
  | nil => intro i j hj; simp at hj
  | cons c cs ih =>
    intro i j hj
    match j with
    | 0 => simp [mrDigits]
    | j + 1 =>
      simp only [mrDigits, List.getD_cons_succ, List.take_succ_cons,
        List.prod_cons]
      rw [ih (i / c) j (by simpa using hj), Nat.div_div_eq_div_mul]

/-! ## Closed form of `cpt_indices` -/

/-- Processing one valid constraint intersects the running (in-range) index
set with the digit condition of that variable. -/
theorem cptStep_some (bn : BN) (target : String) (nv : String × String)
    (pre : List Nat) (hpre : ∀ i ∈ pre, i < (cpt bn target).length)
    (h1 : nv.1 ∈ scope bn target) (h2 : nv.2 ∈ values bn nv.1)
    (hw : 0 < (stride bn target nv.1).getD 0) :
    cptStep bn target (some pre) nv
      = some (pre.filter (fun i =>
          decide ((i / (stride bn target nv.1).getD 0) % card bn nv.1
            = (values bn nv.1).indexOf nv.2))) := by
  have hvc : (values bn nv.1).indexOf nv.2 < card bn nv.1 :=
    List.indexOf_lt_length.mpr h2
  have hvidx : value_idx bn nv.1 nv.2 = ((values bn nv.1).indexOf nv.2 : Int) := by
    rw [value_idx, indexOf?_eq_some_of_mem h2]
  obtain ⟨l, hl, hchar⟩ := rvPattern_char (cpt bn target).length
    ((stride bn target nv.1).getD 0) (card bn nv.1)
    ((values bn nv.1).indexOf nv.2) hw hvc
  rw [cptStep]
  simp only [Option.bind_eq_bind, Option.some_bind, if_pos h1, hvidx, hl,
    Option.some_bind]
  congr 1
  apply List.filter_congr
  intro i hi
  exact decide_eq_decide.mpr (hchar i (hpre i hi))

/-- The whole fold of `cpt_indices` over valid constraints filters the
initial range by the conjunction of all digit conditions. -/
theorem cptIndices_foldAux (bn : BN) (target : String) :
    ∀ (valDict : List (String × String)) (pre : List Nat),
      (∀ i ∈ pre, i < (cpt bn target).length) →
      (∀ nv ∈ valDict, nv.1 ∈ scope bn target ∧ nv.2 ∈ values bn nv.1 ∧
        0 < (stride bn target nv.1).getD 0) →
      valDict.foldl (cptStep bn target) (some pre)
        = some (pre.filter (fun i => valDict.all (fun nv =>
            decide ((i / (stride bn target nv.1).getD 0) % card bn nv.1
              = (values bn nv.1).indexOf nv.2)))) := by
  intro valDict
  induction valDict with
  | nil =>
    intro pre hpre h
    simp
  | cons nv rest ih =>
    intro pre hpre h
    obtain ⟨ha, hb, hc⟩ := h nv (List.mem_cons_self nv rest)
    rw [List.foldl_cons, cptStep_some bn target nv pre hpre ha hb hc,
      ih _ (fun i hi => hpre i (List.mem_of_mem_filter hi))
        (fun x hx => h x (List.mem_cons_of_mem _ hx))]
    congr 1
    rw [List.filter_filter]
    apply List.filter_congr
    intro x hx
    simp only [List.all_cons]
    rw [Bool.and_comm]

/-- Closed form of `cpt_indices` over a dictionary of valid constraints. -/
theorem cptIndices_eq_filter (bn : BN) (target : String)
    (valDict : List (String × String))
    (h : ∀ nv ∈ valDict, nv.1 ∈ scope bn target ∧ nv.2 ∈ values bn nv.1 ∧
      0 < (stride bn target nv.1).getD 0) :
    cptIndices bn target valDict
      = some ((List.range (cpt bn target).length).filter
          (fun i => valDict.all (fun nv =>
            decide ((i / (stride bn target nv.1).getD 0) % card bn nv.1
              = (values bn nv.1).indexOf nv.2)))) := by
  rw [cptIndices]
  exact cptIndices_foldAux bn target valDict _
    (fun i hi => List.mem_range.mp hi) h

/-! ## Full assignments are in bijection with flat indices -/

/-- The cardinalities of the scope variables, `rv` first. -/
def scopeCards (bn : BN) (rv : String) : List Nat :=
  (scope bn rv).map (card bn)

/-- The digit list of a label assignment over the scope. -/
def scopeDigits (bn : BN) (rv : String) (ls : List String) : List Nat :=
  List.zipWith (fun n l => (values bn n).indexOf l) (scope bn rv) ls

/-- Under a duplicate-free scope, the code's `stride` at the `j`-th scope
variable is the product of the first `j` scope cardinalities. -/
theorem stride_scope_getElem (bn : BN) (rv : String)
    (hnd : (scope bn rv).Nodup) (j : Nat) (hj : j < (scope bn rv).length) :
    stride bn rv ((scope bn rv)[j]) = some (((scopeCards bn rv).take j).prod) := by
  match j with
  | 0 =>
    have : (scope bn rv)[0] = rv := by simp [scope]
    rw [this]
    simp [stride]
  | j + 1 =>
    have hjp : j < (parents bn rv).length := by
      simp only [scope, List.length_cons] at hj
      omega
    have hget : (scope bn rv)[j + 1] = (parents bn rv)[j] := by
      simp [scope]
    have hmem : (parents bn rv)[j] ∈ parents bn rv := List.getElem_mem hjp
    obtain ⟨hrv, hndp⟩ := List.nodup_cons.mp hnd
    have hne : (parents bn rv)[j] ≠ rv := by
      intro heq
      rw [heq] at hmem
      exact hrv hmem
    have hidx : (parents bn rv).indexOf? ((parents bn rv)[j]) = some j := by
      rw [indexOf?_eq_some_of_mem hmem, indexOf_getElem_of_nodup hndp j hjp]
    rw [hget, stride, if_neg hne, hidx, Option.map_some']
    simp only [scopeCards, scope, List.map_cons]

/-- On a well-formed rv (duplicate-free scope, CPT length equal to the
product of the scope cardinalities), `cpt_indices` of a full assignment of
domain labels over the scope is the singleton of the mixed-radix encoding of
the labels' value indices. -/
theorem cptIndices_full (bn : BN) (rv : String)
    (hnd : (scope bn rv).Nodup)
    (hlen : (cpt bn rv).length = (scopeCards bn rv).prod)
    (ls : List String)
    (hls : List.Forall₂ (fun n l => l ∈ values bn n) (scope bn rv) ls) :
    cptIndices bn rv ((scope bn rv).zip ls)
      = some [mrEncode (scopeDigits bn rv ls) (scopeCards bn rv)] := by
  have hlens : (scope bn rv).length = ls.length := hls.length_eq
  have hzipR : ∀ nv ∈ (scope bn rv).zip ls, nv.2 ∈ values bn nv.1 := by
    intro nv hnv
    exact (List.forall₂_iff_zip.mp hls).2 hnv
  have hcardpos : ∀ n ∈ scope bn rv, 0 < card bn n := by
    intro n hn
    obtain ⟨j, hj, rfl⟩ := List.mem_iff_getElem.mp hn
    have hmem := (List.forall₂_iff_get.mp hls).2 j hj (by omega)
    simp only [List.get_eq_getElem] at hmem
    exact List.length_pos.mpr (List.ne_nil_of_mem hmem)
  have hcspos : ∀ x ∈ scopeCards bn rv, 0 < x := by
    intro x hx
    rw [scopeCards] at hx
    obtain ⟨n, hn, rfl⟩ := List.mem_map.mp hx
    exact hcardpos n hn
  have hwpos : ∀ n ∈ scope bn rv, 0 < (stride bn rv n).getD 0 := by
    intro n hn
    obtain ⟨j, hj, rfl⟩ := List.mem_iff_getElem.mp hn
    rw [stride_scope_getElem bn rv hnd j hj, Option.getD_some]
    exact List.prod_pos fun x hx => hcspos x (List.mem_of_mem_take hx)
  have hcslen : (scopeCards bn rv).length = (scope bn rv).length := by
    rw [scopeCards, List.length_map]
  have hdslen : (scopeDigits bn rv ls).length = (scope bn rv).length := by
    rw [scopeDigits, List.length_zipWith, ← hlens, min_self]
  have hforall : List.Forall₂ (· < ·) (scopeDigits bn rv ls) (scopeCards bn rv) := by
    rw [List.forall₂_iff_get]
    refine ⟨by rw [hdslen, hcslen], ?_⟩
    intro j h1 h2
    simp only [List.get_eq_getElem, scopeDigits, scopeCards, List.getElem_zipWith,
      List.getElem_map]
    have hj : j < (scope bn rv).length := by omega
    have hmem := (List.forall₂_iff_get.mp hls).2 j hj (by omega)
    simp only [List.get_eq_getElem] at hmem
    exact List.indexOf_lt_length.mpr hmem
  have hencl : mrEncode (scopeDigits bn rv ls) (scopeCards bn rv)
      < (cpt bn rv).length := by
    rw [hlen]
    exact mrEncode_lt hforall
  have hchar : ∀ i, i < (cpt bn rv).length →
      ((((scope bn rv).zip ls).all (fun nv =>
        decide ((i / (stride bn rv nv.1).getD 0) % card bn nv.1
          = (values bn nv.1).indexOf nv.2))) = true ↔
        i = mrEncode (scopeDigits bn rv ls) (scopeCards bn rv)) := by
    intro i hi
    rw [List.all_eq_true]
    have hziplen : ((scope bn rv).zip ls).length = (scope bn rv).length := by
      rw [List.length_zip, ← hlens, min_self]
    have hcond : ∀ j (hj : j < (scope bn rv).length),
        ((i / (stride bn rv ((scope bn rv)[j])).getD 0) % card bn ((scope bn rv)[j])
          = (values bn ((scope bn rv)[j])).indexOf (ls[j]))
        ↔ ((i / (((scopeCards bn rv).take j).prod))
            % ((scopeCards bn rv)[j])
          = (scopeDigits bn rv ls)[j]) := by
      intro j hj
      rw [stride_scope_getElem bn rv hnd j hj, Option.getD_some]
      constructor <;>
        · intro h
          simpa only [scopeCards, scopeDigits, List.getElem_map,
            List.getElem_zipWith] using h
    constructor
    · intro hall
      have hdig : ∀ j (hj : j < (scope bn rv).length),
          (i / (((scopeCards bn rv).take j).prod))
            % ((scopeCards bn rv)[j])
          = (scopeDigits bn rv ls)[j] := by
        intro j hj
        have hjz : j < ((scope bn rv).zip ls).length := by rw [hziplen]; exact hj
        have hpair := hall (((scope bn rv).zip ls)[j]) (List.getElem_mem hjz)
        rw [List.getElem_zip] at hpair
        rw [← hcond j hj]
        exact of_decide_eq_true hpair
      have hdigits : scopeDigits bn rv ls = mrDigits i (scopeCards bn rv) := by
        apply List.ext_getElem
        · rw [hdslen, mrDigits_length, hcslen]
        · intro j h1 h2
          have hj : j < (scope bn rv).length := by rw [← hdslen]; exact h1
          have hjc : j < (scopeCards bn rv).length := by rw [hcslen]; exact hj
          have hgd := mrDigits_getD (scopeCards bn rv) i j hjc
          rw [List.getD_eq_getElem _ _ h2, List.getD_eq_getElem _ _ hjc] at hgd
          rw [hgd, ← hdig j hj]
      rw [hdigits]
      exact (mrEncode_mrDigits i (hlen ▸ hi)).symm
    · intro hienc nv hnv
      obtain ⟨j, hjz, rfl⟩ := List.mem_iff_getElem.mp hnv
      have hj : j < (scope bn rv).length := by
        rw [List.length_zip, ← hlens, min_self] at hjz
        exact hjz
      rw [List.getElem_zip]
      apply decide_eq_true
      rw [hcond j hj]
      have hjc : j < (scopeCards bn rv).length := by rw [hcslen]; exact hj
      have hext := mrEncode_digit hforall j hjc
      rw [List.getD_eq_getElem _ _ hjc,
        List.getD_eq_getElem _ _ (by rw [hdslen]; exact hj)] at hext
      rw [hienc]
      exact hext
  rw [cptIndices_eq_filter bn rv _ (fun nv hnv =>
    ⟨(List.of_mem_zip hnv).1, hzipR nv hnv, hwpos _ (List.of_mem_zip hnv).1⟩)]
  congr 1
  rw [List.filter_congr (fun i hi => ?_), filter_range_single _ _ hencl]
  rw [Bool.eq_iff_iff, decide_eq_true_eq]
  exact hchar i (List.mem_range.mp hi)

theorem scopeDigits_forallLt (bn : BN) (rv : String) (ls : List String)
    (hls : List.Forall₂ (fun n l => l ∈ values bn n) (scope bn rv) ls) :
    List.Forall₂ (· < ·) (scopeDigits bn rv ls) (scopeCards bn rv) := by
  have hlens := hls.length_eq
  rw [List.forall₂_iff_get]
  refine ⟨by rw [scopeDigits, scopeCards, List.length_zipWith, List.length_map,
    ← hlens, min_self], ?_⟩
  intro j h1 h2
  simp only [List.get_eq_getElem, scopeDigits, scopeCards, List.getElem_zipWith,
    List.getElem_map]
  have hj : j < (scope bn rv).length := by
    simp only [scopeDigits, List.length_zipWith] at h1
    omega
  have hmem := (List.forall₂_iff_get.mp hls).2 j hj (by omega)
  simp only [List.get_eq_getElem] at hmem
  exact List.indexOf_lt_length.mpr hmem

/-! ## C1: the full-assignment/index bijection -/

/-- C1: for a well-formed rv (duplicate-free scope, duplicate-free value
domains, `len(cpt) = card(rv) * Π card(p)`), `cpt_indices` maps every full
assignment of domain labels over the scope to exactly one flat index in
`[0, len(cpt))`; the map is injective on full assignments and every index in
range is attained. -/
theorem cpt_indices_bijection (bn : BN) (rv : String)
    (hnd : (scope bn rv).Nodup)
    (hlen : (cpt bn rv).length = (scopeCards bn rv).prod)
    (hvnd : ∀ n ∈ scope bn rv, (values bn n).Nodup) :
    (∀ ls : List String,
      List.Forall₂ (fun n l => l ∈ values bn n) (scope bn rv) ls →
      ∃ i, cptIndices bn rv ((scope bn rv).zip ls) = some [i] ∧
        i < (cpt bn rv).length) ∧
    (∀ ls ls' : List String,
      List.Forall₂ (fun n l => l ∈ values bn n) (scope bn rv) ls →
      List.Forall₂ (fun n l => l ∈ values bn n) (scope bn rv) ls' →
      cptIndices bn rv ((scope bn rv).zip ls)
        = cptIndices bn rv ((scope bn rv).zip ls') → ls = ls') ∧
    (∀ i, i < (cpt bn rv).length → ∃ ls : List String,
      List.Forall₂ (fun n l => l ∈ values bn n) (scope bn rv) ls ∧
      cptIndices bn rv ((scope bn rv).zip ls) = some [i]) := by
  refine ⟨?_, ?_, ?_⟩
  · intro ls hls
    exact ⟨_, cptIndices_full bn rv hnd hlen ls hls,
      hlen ▸ mrEncode_lt (scopeDigits_forallLt bn rv ls hls)⟩
  · intro ls ls' hls hls' heq
    rw [cptIndices_full bn rv hnd hlen ls hls,
      cptIndices_full bn rv hnd hlen ls' hls'] at heq
    have henc : mrEncode (scopeDigits bn rv ls) (scopeCards bn rv)
        = mrEncode (scopeDigits bn rv ls') (scopeCards bn rv) := by
      simpa using heq
    have hds := mrEncode_inj (scopeDigits_forallLt bn rv ls hls)
      (scopeDigits_forallLt bn rv ls' hls') henc
    apply List.ext_getElem (by rw [← hls.length_eq, ← hls'.length_eq])
    intro j h1 h2
    have hj : j < (scope bn rv).length := by rw [hls.length_eq]; exact h1
    have hd1 : j < (scopeDigits bn rv ls).length := by
      rw [scopeDigits, List.length_zipWith]
      omega
    have hd2 : j < (scopeDigits bn rv ls').length := by
      rw [scopeDigits, List.length_zipWith]
      omega
    have hdj : (scopeDigits bn rv ls)[j] = (scopeDigits bn rv ls')[j] := by
      simp only [hds]
    simp only [scopeDigits, List.getElem_zipWith] at hdj
    have hm1 := (List.forall₂_iff_get.mp hls).2 j hj (by omega)
    have hm2 := (List.forall₂_iff_get.mp hls').2 j hj (by omega)
    simp only [List.get_eq_getElem] at hm1 hm2
    have hg1 := List.getElem_indexOf (List.indexOf_lt_length.mpr hm1)
    have hg2 := List.getElem_indexOf (List.indexOf_lt_length.mpr hm2)
    rw [← hg1, ← hg2]
    congr 1
  · intro i hi
    have hip : i < (scopeCards bn rv).prod := hlen ▸ hi
    have hcspos : ∀ c ∈ scopeCards bn rv, 0 < c := by
      intro c hc
      rcases Nat.eq_zero_or_pos c with rfl | h
      · rw [List.prod_eq_zero hc] at hip
        omega
      · exact h
    have hdslt := mrDigits_lt i hcspos
    have hdlen : (mrDigits i (scopeCards bn rv)).length = (scope bn rv).length := by
      rw [mrDigits_length, scopeCards, List.length_map]
    have hdlt : ∀ j (hj : j < (scope bn rv).length),
        (mrDigits i (scopeCards bn rv)).getD j 0
          < (values bn ((scope bn rv)[j])).length := by
      intro j hj
      have h2 : j < (scopeCards bn rv).length := by
        rw [scopeCards, List.length_map]
        exact hj
      have hlt := (List.forall₂_iff_get.mp hdslt).2 j (by omega) h2
      simp only [List.get_eq_getElem, scopeCards, List.getElem_map] at hlt
      rw [List.getD_eq_getElem _ _ (by omega)]
      exact hlt
    have hlslen : (List.zipWith (fun n d => (values bn n).getD d "")
        (scope bn rv) (mrDigits i (scopeCards bn rv))).length
        = (scope bn rv).length := by
      rw [List.length_zipWith, hdlen, min_self]
    have hlsget : ∀ j (hj : j < (scope bn rv).length),
        (List.zipWith (fun n d => (values bn n).getD d "")
          (scope bn rv) (mrDigits i (scopeCards bn rv)))[j]
        = (values bn ((scope bn rv)[j])).getD
            ((mrDigits i (scopeCards bn rv)).getD j 0) "" := by
      intro j hj
      simp only [List.getElem_zipWith]
      congr 1
      exact (List.getD_eq_getElem _ _ (by omega)).symm
    have hls : List.Forall₂ (fun n l => l ∈ values bn n) (scope bn rv)
        (List.zipWith (fun n d => (values bn n).getD d "")
          (scope bn rv) (mrDigits i (scopeCards bn rv))) := by
      rw [List.forall₂_iff_get]
      refine ⟨by omega, ?_⟩
      intro j h1 h2
      simp only [List.get_eq_getElem]
      rw [hlsget j h1, List.getD_eq_getElem _ _ (hdlt j h1)]
      exact List.getElem_mem _
    have hdseq : scopeDigits bn rv
        (List.zipWith (fun n d => (values bn n).getD d "")
          (scope bn rv) (mrDigits i (scopeCards bn rv)))
        = mrDigits i (scopeCards bn rv) := by
      apply List.ext_getElem
      · rw [scopeDigits, List.length_zipWith, hlslen, min_self, hdlen]
      · intro j h1 h2
        have hj : j < (scope bn rv).length := by
          simp only [scopeDigits, List.length_zipWith] at h1
          omega
        simp only [scopeDigits, List.getElem_zipWith]
        have hb : (mrDigits i (scopeCards bn rv))[j]
            < (values bn ((scope bn rv)[j])).length := by
          have hd := hdlt j hj
          rwa [List.getD_eq_getElem _ _ h2] at hd
        rw [List.getD_eq_getElem _ _ hb]
        exact indexOf_getElem_of_nodup (hvnd _ (List.getElem_mem hj)) _ hb
    refine ⟨_, hls, ?_⟩
    rw [cptIndices_full bn rv hnd hlen _ hls, hdseq, mrEncode_mrDigits i hip]

/-- A concrete well-formed network: `c` has parents `a` (card 2) and `b`
(card 3), own card 2, and a CPT of length `2 * 2 * 3 = 12`. -/
def cptExBN : BN :=
  { V := ["a", "b", "c"]
    E := [("a", ["c"]), ("b", ["c"]), ("c", [])]
    F := [("a", ⟨[], ["a0", "a1"], [1/2, 1/2]⟩),
          ("b", ⟨[], ["b0", "b1", "b2"], [1/3, 1/3, 1/3]⟩),
          ("c", ⟨["a", "b"], ["c0", "c1"], List.replicate 12 (1/12)⟩)] }

theorem cpt_indices_bijection_witness :
    ∃ i, cptIndices cptExBN "c"
        ((scope cptExBN "c").zip ["c1", "a0", "b2"]) = some [i] ∧
      i < (cpt cptExBN "c").length :=
  (cpt_indices_bijection cptExBN "c" (by decide) (by decide) (by decide)).1
    ["c1", "a0", "b2"]
    (List.Forall₂.cons (by decide)
      (List.Forall₂.cons (by decide)
        (List.Forall₂.cons (by decide) List.Forall₂.nil)))

/-! ## C3: the `cpt_str_idx` decoding round trip -/

theorem zip_map_self {α β : Type} (f : α → β) : ∀ l : List α,
    l.zip (l.map f) = l.map (fun a => (a, f a)) := by
  intro l
  induction l with
  | nil => rfl
  | cons a l ih => simp [ih]

theorem filter_eq_single_of_nodup {α : Type} [DecidableEq α] {l : List α}
    (hnd : l.Nodup) {a : α} (ha : a ∈ l) :
    l.filter (fun x => decide (x = a)) = [a] := by
  induction l with
  | nil => simp at ha
  | cons x xs ih =>
    obtain ⟨hx, hnds⟩ := List.nodup_cons.mp hnd
    rcases List.mem_cons.mp ha with rfl | hmem
    · have hnil : xs.filter (fun y => decide (y = a)) = [] := by
        rw [List.filter_eq_nil_iff]
        intro b hb
        simp only [decide_eq_true_eq]
        intro hba
        exact hx (hba ▸ hb)
      simp [List.filter_cons, hnil]
    · have hxa : x ≠ a := fun h => hx (h ▸ hmem)
      simp [List.filter_cons, hxa, ih hnds hmem]

/-- Membership form of the closed formula for `cpt_indices`. -/
theorem cptIndices_mem (bn : BN) (target : String)
    (valDict : List (String × String))
    (h : ∀ nv ∈ valDict, nv.1 ∈ scope bn target ∧ nv.2 ∈ values bn nv.1 ∧
      0 < (stride bn target nv.1).getD 0)
    (i : Nat) (hi : i < (cpt bn target).length) :
    ∃ l, cptIndices bn target valDict = some l ∧
      (i ∈ l ↔ ∀ nv ∈ valDict,
        (i / (stride bn target nv.1).getD 0) % card bn nv.1
          = (values bn nv.1).indexOf nv.2) := by
  refine ⟨_, cptIndices_eq_filter bn target valDict h, ?_⟩
  rw [List.mem_filter, List.all_eq_true]
  constructor
  · rintro ⟨-, hall⟩ nv hnv
    exact of_decide_eq_true (hall nv hnv)
  · intro hall
    exact ⟨List.mem_range.mpr hi, fun nv hnv => decide_eq_true (hall nv hnv)⟩

/-- The rv-label `rv_val = self.values(rv)[idx % self.card(rv)]` decoded by
`cpt_str_idx`. -/
def cptStrRvVal (bn : BN) (rv : String) (idx : Nat) : String :=
  (values bn rv).getD (idx % card bn rv) ""

/-- The parent labels accepted by the `cpt_str_idx` loop for parent `p`:
those `val` in `p`'s domain with
`idx in cpt_indices(rv, {rv: rv_val, p: val})` (the loop appends each
accepted label to the output string, so this list is its decoded content for
`p`). -/
def cptStrVals (bn : BN) (rv : String) (idx : Nat) (p : String) : List String :=
  (values bn p).filter (fun val =>
    match cptIndices bn rv [(rv, cptStrRvVal bn rv idx), (p, val)] with
    | some l => decide (idx ∈ l)
    | none => false)

/-- The assignment decoded by `cpt_str_idx`, with the `rv=val|p=val,...`
string formatting elided: the rv-label together with the accepted label of
each parent. -/
def cptStrAssign (bn : BN) (rv : String) (idx : Nat) : List (String × String) :=
  (rv, cptStrRvVal bn rv idx) ::
    (parents bn rv).map (fun p => (p, (cptStrVals bn rv idx p).headD ""))

/-- C3: on a well-formed rv, for every valid flat index `idx`, the
`cpt_str_idx` membership test accepts exactly one label per parent, and
re-deriving the index from the decoded full assignment through `cpt_indices`
returns exactly `[idx]`. -/
theorem cpt_str_idx_roundtrip (bn : BN) (rv : String)
    (hnd : (scope bn rv).Nodup)
    (hlen : (cpt bn rv).length = (scopeCards bn rv).prod)
    (hvnd : ∀ n ∈ scope bn rv, (values bn n).Nodup)
    (idx : Nat) (hidx : idx < (cpt bn rv).length) :
    (∀ p ∈ parents bn rv, ∃ v, cptStrVals bn rv idx p = [v]) ∧
    cptIndices bn rv (cptStrAssign bn rv idx) = some [idx] := by
  have hip : idx < (scopeCards bn rv).prod := hlen ▸ hidx
  have hcspos : ∀ c ∈ scopeCards bn rv, 0 < c := by
    intro c hc
    rcases Nat.eq_zero_or_pos c with rfl | h
    · rw [List.prod_eq_zero hc] at hip
      omega
    · exact h
  have hcardpos : ∀ n ∈ scope bn rv, 0 < card bn n := by
    intro n hn
    exact hcspos _ (by rw [scopeCards]; exact List.mem_map_of_mem _ hn)
  have hrvmem : rv ∈ scope bn rv := by
    rw [scope]
    exact List.mem_cons_self _ _
  have hc0 : 0 < card bn rv := hcardpos rv hrvmem
  have hd0lt : idx % card bn rv < (values bn rv).length := Nat.mod_lt idx hc0
  have hv0 : cptStrRvVal bn rv idx = (values bn rv)[idx % card bn rv] := by
    rw [cptStrRvVal, List.getD_eq_getElem _ _ hd0lt]
  have hv0mem : cptStrRvVal bn rv idx ∈ values bn rv := by
    rw [hv0]
    exact List.getElem_mem _
  have hv0idx : (values bn rv).indexOf (cptStrRvVal bn rv idx)
      = idx % card bn rv := by
    rw [hv0]
    exact indexOf_getElem_of_nodup (hvnd rv hrvmem) _ hd0lt
  have hstriderv : (stride bn rv rv).getD 0 = 1 := by simp [stride]
  have hwpos : ∀ n ∈ scope bn rv, 0 < (stride bn rv n).getD 0 := by
    intro n hn
    obtain ⟨j, hj, rfl⟩ := List.mem_iff_getElem.mp hn
    rw [stride_scope_getElem bn rv hnd j hj, Option.getD_some]
    exact List.prod_pos fun x hx => hcspos x (List.mem_of_mem_take hx)
  have hpmem : ∀ j (hj : j < (parents bn rv).length),
      (parents bn rv)[j] ∈ scope bn rv := by
    intro j hj
    rw [scope]
    exact List.mem_cons_of_mem _ (List.getElem_mem hj)
  have hsp : ∀ j (hj : j < (parents bn rv).length),
      (stride bn rv ((parents bn rv)[j])).getD 0
        = ((scopeCards bn rv).take (j + 1)).prod := by
    intro j hj
    have hj1 : j + 1 < (scope bn rv).length := by
      rw [scope, List.length_cons]
      omega
    have hg : (scope bn rv)[j + 1] = (parents bn rv)[j] := by
      simp [scope]
    rw [← hg, stride_scope_getElem bn rv hnd (j + 1) hj1, Option.getD_some]
  have hvals : ∀ j (hj : j < (parents bn rv).length),
      cptStrVals bn rv idx ((parents bn rv)[j])
        = [(values bn ((parents bn rv)[j])).getD
            ((idx / ((scopeCards bn rv).take (j + 1)).prod)
              % card bn ((parents bn rv)[j])) ""] := by
    intro j hj
    have hpc : 0 < card bn ((parents bn rv)[j]) := hcardpos _ (hpmem j hj)
    have hdlt : (idx / ((scopeCards bn rv).take (j + 1)).prod)
        % card bn ((parents bn rv)[j])
        < (values bn ((parents bn rv)[j])).length := Nat.mod_lt _ hpc
    have htgt : (values bn ((parents bn rv)[j])).getD
        ((idx / ((scopeCards bn rv).take (j + 1)).prod)
          % card bn ((parents bn rv)[j])) ""
        = (values bn ((parents bn rv)[j]))[
            (idx / ((scopeCards bn rv).take (j + 1)).prod)
              % card bn ((parents bn rv)[j])] :=
      List.getD_eq_getElem _ _ hdlt
    have hcongr : ∀ val ∈ values bn ((parents bn rv)[j]),
        (match cptIndices bn rv
            [(rv, cptStrRvVal bn rv idx), ((parents bn rv)[j], val)] with
          | some l => decide (idx ∈ l)
          | none => false)
        = decide (val = (values bn ((parents bn rv)[j]))[
            (idx / ((scopeCards bn rv).take (j + 1)).prod)
              % card bn ((parents bn rv)[j])]) := by
      intro val hval
      have hcond : ∀ nv ∈ [(rv, cptStrRvVal bn rv idx),
          ((parents bn rv)[j], val)],
          nv.1 ∈ scope bn rv ∧ nv.2 ∈ values bn nv.1 ∧
            0 < (stride bn rv nv.1).getD 0 := by
        rw [List.forall_mem_cons, List.forall_mem_cons]
        exact ⟨⟨hrvmem, hv0mem, hwpos rv hrvmem⟩,
          ⟨hpmem j hj, hval, hwpos _ (hpmem j hj)⟩, by simp⟩
      obtain ⟨l, hl, hiff⟩ := cptIndices_mem bn rv _ hcond idx hidx
      simp only [hl]
      apply decide_eq_decide.mpr
      rw [hiff, List.forall_mem_cons, List.forall_mem_cons]
      constructor
      · rintro ⟨-, h2, -⟩
        simp only at h2
        rw [hsp j hj] at h2
        have hvl : (values bn ((parents bn rv)[j])).indexOf val
            < (values bn ((parents bn rv)[j])).length :=
          List.indexOf_lt_length.mpr hval
        calc val = (values bn ((parents bn rv)[j]))[
              (values bn ((parents bn rv)[j])).indexOf val] :=
            (List.getElem_indexOf hvl).symm
          _ = _ := by simp only [← h2]
      · intro hveq
        refine ⟨?_, ?_, by simp⟩
        · simp only
          rw [hstriderv, Nat.div_one, hv0idx]
        · simp only
          rw [hsp j hj, hveq,
            indexOf_getElem_of_nodup (hvnd _ (hpmem j hj)) _ hdlt]
    rw [cptStrVals, List.filter_congr hcongr,
      filter_eq_single_of_nodup (hvnd _ (hpmem j hj)) (List.getElem_mem hdlt),
      htgt]
  refine ⟨?_, ?_⟩
  · intro p hp
    obtain ⟨j, hj, rfl⟩ := List.mem_iff_getElem.mp hp
    exact ⟨_, hvals j hj⟩
  · have hscope : scope bn rv = rv :: parents bn rv := rfl
    have hassign : cptStrAssign bn rv idx
        = (scope bn rv).zip (cptStrRvVal bn rv idx ::
            (parents bn rv).map (fun p => (cptStrVals bn rv idx p).headD "")) := by
      rw [cptStrAssign, hscope, List.zip_cons_cons, zip_map_self]
    have hlstail : ∀ j (hj : j < (parents bn rv).length)
        (hjm : j < ((parents bn rv).map
          (fun p => (cptStrVals bn rv idx p).headD "")).length),
        ((parents bn rv).map (fun p => (cptStrVals bn rv idx p).headD ""))[j]
          = (values bn ((parents bn rv)[j])).getD
              ((idx / ((scopeCards bn rv).take (j + 1)).prod)
                % card bn ((parents bn rv)[j])) "" := by
      intro j hj hjm
      rw [List.getElem_map, hvals j hj, List.headD_cons]
    have hls : List.Forall₂ (fun n l => l ∈ values bn n) (scope bn rv)
        (cptStrRvVal bn rv idx ::
          (parents bn rv).map (fun p => (cptStrVals bn rv idx p).headD "")) := by
      rw [scope]
      refine List.Forall₂.cons hv0mem ?_
      rw [List.forall₂_iff_get]
      refine ⟨by rw [List.length_map], ?_⟩
      intro j h1 h2
      simp only [List.get_eq_getElem]
      rw [hlstail j h1 h2]
      have hb : (idx / ((scopeCards bn rv).take (j + 1)).prod)
          % card bn ((parents bn rv)[j]) < (values bn ((parents bn rv)[j])).length :=
        Nat.mod_lt _ (hcardpos _ (hpmem j h1))
      rw [List.getD_eq_getElem _ _ hb]
      exact List.getElem_mem _
    have hdseq : scopeDigits bn rv
        (cptStrRvVal bn rv idx ::
          (parents bn rv).map (fun p => (cptStrVals bn rv idx p).headD ""))
        = mrDigits idx (scopeCards bn rv) := by
      apply List.ext_getElem
      · rw [scopeDigits, List.length_zipWith, mrDigits_length, scopeCards,
          List.length_map, scope, List.length_cons, List.length_cons,
          List.length_map, min_self]
      · intro j h1 h2
        have hj : j < (scope bn rv).length := by
          simp only [scopeDigits, List.length_zipWith, scope, List.length_cons,
            List.length_map] at h1
          simp only [scope, List.length_cons]
          omega
        have hjc : j < (scopeCards bn rv).length := by
          rw [scopeCards, List.length_map]
          exact hj
        have hgd := mrDigits_getD (scopeCards bn rv) idx j hjc
        rw [List.getD_eq_getElem _ _ h2, List.getD_eq_getElem _ _ hjc] at hgd
        rw [hgd]
        simp only [scopeDigits, List.getElem_zipWith]
        match j with
        | 0 =>
          simp only [scopeCards, List.getElem_map, hscope, List.getElem_cons_zero,
            List.take_zero, List.prod_nil, Nat.div_one]
          exact hv0idx
        | j + 1 =>
          have hjp : j < (parents bn rv).length := by
            rw [hscope, List.length_cons] at hj
            omega
          have hc1 : (scope bn rv)[j + 1] = (parents bn rv)[j] := by
            simp [scope]
          have hjm : j < ((parents bn rv).map
              (fun p => (cptStrVals bn rv idx p).headD "")).length := by
            rw [List.length_map]
            exact hjp
          have hjm1 : j + 1 < (cptStrRvVal bn rv idx ::
              (parents bn rv).map
                (fun p => (cptStrVals bn rv idx p).headD "")).length := by
            rw [List.length_cons, List.length_map]
            omega
          have hl1 : (cptStrRvVal bn rv idx ::
              (parents bn rv).map (fun p => (cptStrVals bn rv idx p).headD ""))[
                j + 1]
              = ((parents bn rv).map
                  (fun p => (cptStrVals bn rv idx p).headD ""))[j] := by
            simp
          have hcj : (scopeCards bn rv)[j + 1]
              = card bn ((parents bn rv)[j]) := by
            simp only [scopeCards, List.getElem_map, hc1]
          have hb : (idx / ((scopeCards bn rv).take (j + 1)).prod)
              % card bn ((parents bn rv)[j])
              < (values bn ((parents bn rv)[j])).length :=
            Nat.mod_lt _ (hcardpos _ (hpmem j hjp))
          rw [hl1, hlstail j hjp hjm, hcj, List.getD_eq_getElem _ _ hb]
          simp only [hc1]
          exact indexOf_getElem_of_nodup (hvnd _ (hpmem j hjp)) _ hb
    rw [hassign, cptIndices_full bn rv hnd hlen _ hls, hdseq,
      mrEncode_mrDigits idx hip]

theorem cpt_str_idx_roundtrip_witness :
    (∀ p ∈ parents cptExBN "c", ∃ v, cptStrVals cptExBN "c" 9 p = [v]) ∧
    cptIndices cptExBN "c" (cptStrAssign cptExBN "c" 9) = some [9] :=
  cpt_str_idx_roundtrip cptExBN "c" (by decide) (by decide) (by decide) 9
    (by decide)

/-! ## C4: moralization -/

/-- Python `e.add(x)` on the set `e`, represented as the insertion-ordered
duplicate-free list of its elements. -/
def setAdd (e : List (String × String)) (x : String × String) :
    List (String × String) :=
  if x ∈ e then e else e ++ [x]

/-- The body of the inner `for p2 in self.parents(u)` loop of
`moralized_edges`: `if p1 != p2 and (p2, p1) not in e: e.add((p1, p2))`. -/
def marryStep (p1 : String) (e : List (String × String)) (p2 : String) :
    List (String × String) :=
  if p1 ≠ p2 ∧ (p2, p1) ∉ e then setAdd e (p1, p2) else e

/-- The inner loop of `moralized_edges` over the co-parents of `u`. -/
def momInner (bn : BN) (u p1 : String) (e : List (String × String)) :
    List (String × String) :=
  (parents bn u).foldl (marryStep p1) e

/-- The outer `for p1 in self.parents(u)` loop body of `moralized_edges`:
`e.add((p1, u))`, then the inner loop. -/
def momNode (bn : BN) (u : String) (e : List (String × String)) :
    List (String × String) :=
  (parents bn u).foldl (fun e p1 => momInner bn u p1 (setAdd e (p1, u))) e

/-- Method `moralized_edges()`: fold the node loop over `V`, starting from the empty
set. -/
def moralized_edges (bn : BN) : List (String × String) :=
  bn.V.foldl (fun e u => momNode bn u e) []

theorem setAdd_mem_iff (e : List (String × String)) (x y : String × String) :
    y ∈ setAdd e x ↔ y ∈ e ∨ y = x := by
  rw [setAdd]
  by_cases hx : x ∈ e
  · rw [if_pos hx]
    constructor
    · exact Or.inl
    · rintro (h | rfl)
      · exact h
      · exact hx
  · rw [if_neg hx, List.mem_append, List.mem_singleton]

theorem foldl_mem_mono {α : Type}
    (f : List (String × String) → α → List (String × String))
    (hf : ∀ e a, ∀ x ∈ e, x ∈ f e a) :
    ∀ (l : List α) (e : List (String × String)) (x : String × String),
      x ∈ e → x ∈ l.foldl f e := by
  intro l
  induction l with
  | nil => exact fun e x hx => hx
  | cons a l ih => exact fun e x hx => ih _ _ (hf e a x hx)

theorem marryStep_mono (p1 : String) (e : List (String × String)) (p2 : String) :
    ∀ x ∈ e, x ∈ marryStep p1 e p2 := by
  intro x hx
  rw [marryStep]
  by_cases hg : p1 ≠ p2 ∧ (p2, p1) ∉ e
  · rw [if_pos hg, setAdd_mem_iff]
    exact Or.inl hx
  · rwa [if_neg hg]

theorem momInner_mono (bn : BN) (u p1 : String) (e : List (String × String)) :
    ∀ x ∈ e, x ∈ momInner bn u p1 e :=
  fun x hx => foldl_mem_mono _ (marryStep_mono p1) _ _ x hx

theorem momNodeStep_mono (bn : BN) (u : String) (e : List (String × String))
    (p1 : String) : ∀ x ∈ e, x ∈ momInner bn u p1 (setAdd e (p1, u)) :=
  fun x hx => momInner_mono bn u p1 _ x ((setAdd_mem_iff _ _ _).mpr (Or.inl hx))

theorem momNode_mono (bn : BN) (u : String) (e : List (String × String)) :
    ∀ x ∈ e, x ∈ momNode bn u e :=
  fun x hx => foldl_mem_mono _ (momNodeStep_mono bn u) _ _ x hx

/-- The triangle a→b, a→c, b→c: the parent pair {a, b} of `c` coincides with
the original edge (a, b). -/
def triangleBN : BN :=
  { V := ["a", "b", "c"]
    E := [("a", ["b", "c"]), ("b", ["c"]), ("c", [])]
    F := [("a", ⟨[], ["0", "1"], []⟩),
          ("b", ⟨["a"], ["0", "1"], []⟩),
          ("c", ⟨["a", "b"], ["0", "1"], []⟩)] }

/-- C4 counterexample: in the triangle, rv `c` has 2 parents, so the claim
demands exactly C(2,2) = 1 parent-pair edge beyond the original edges; but
the pair {a, b} is itself the original edge (a, b), and `moralized_edges`
returns no edge beyond the original three. -/
theorem moralized_edges_counterexample :
    (parents triangleBN "c").length = 2 ∧
    ((moralized_edges triangleBN).filter
      (fun uv => !((edgesList triangleBN).contains uv))).length
      ≠ Nat.choose 2 2 := by
  decide

theorem indexOf_append_left {α : Type} [DecidableEq α] {l₁ : List α}
    (l₂ : List α) {a : α} (h : a ∈ l₁) :
    (l₁ ++ l₂).indexOf a = l₁.indexOf a := by
  induction l₁ with
  | nil => simp at h
  | cons x l₁ ih =>
    rw [List.cons_append, List.indexOf_cons, List.indexOf_cons]
    by_cases hxa : x = a
    · simp [hxa]
    · have hbeq : (x == a) = false := by simp [hxa]
      rw [hbeq]
      simp only [cond_false]
      have hmem : a ∈ l₁ := by
        rcases List.mem_cons.mp h with h' | h'
        · exact absurd h'.symm hxa
        · exact h'
      rw [ih hmem]

/-- In a duplicate-free list, any element strictly earlier (by first
position) than an element of a prefix lies in that prefix. -/
theorem prefix_closed {α : Type} [DecidableEq α] {P R : List α} {x y : α}
    (hnd : (P ++ R).Nodup) (hx : x ∈ P ++ R) (hy : y ∈ P)
    (hlt : (P ++ R).indexOf x < (P ++ R).indexOf y) : x ∈ P := by
  have h1 : (P ++ R).indexOf y = P.indexOf y := indexOf_append_left R hy
  have h2 : P.indexOf y < P.length := List.indexOf_lt_length.mpr hy
  have hxl : (P ++ R).indexOf x < P.length := by omega
  have hxV := List.indexOf_lt_length.mpr hx
  have hget : (P ++ R)[(P ++ R).indexOf x] = x := List.getElem_indexOf hxV
  rw [List.getElem_append_left hxl] at hget
  rw [← hget]
  exact List.getElem_mem _

/-- Invariant of the `moralized_edges` accumulator once the nodes of `P`
have been processed: every stored pair is either a parent→child edge of a
processed node or a married pair of distinct co-parents of a processed node,
and no pair is stored in both directions (nor as a self-loop). -/
def InvE (bn : BN) (P : List String) (e : List (String × String)) : Prop :=
  (∀ x ∈ e, (∃ u ∈ P, x.1 ∈ parents bn u ∧ x.2 = u) ∨
    (∃ u ∈ P, x.1 ∈ parents bn u ∧ x.2 ∈ parents bn u ∧ x.1 ≠ x.2)) ∧
  (∀ a b : String, (a, b) ∈ e → (b, a) ∈ e → False)

theorem InvE_mono (bn : BN) (P Q : List String) (hPQ : ∀ x ∈ P, x ∈ Q)
    (e : List (String × String)) (h : InvE bn P e) : InvE bn Q e := by
  refine ⟨?_, h.2⟩
  intro x hx
  rcases h.1 x hx with ⟨u, hu, h1, h2⟩ | ⟨u, hu, h1, h2, h3⟩
  · exact Or.inl ⟨u, hPQ u hu, h1, h2⟩
  · exact Or.inr ⟨u, hPQ u hu, h1, h2, h3⟩

/-- Adding the parent→child edge `(p1, u)` while processing the fresh node
`u` preserves the invariant: its reverse `(u, p1)` can never already be
present. -/
theorem setAddParent_inv (bn : BN) (P : List String) (u : String)
    (hup : u ∉ P) (hiru : u ∉ parents bn u)
    (hicl : ∀ w ∈ P, ∀ p ∈ parents bn w, p ∈ P)
    (p1 : String) (hp1 : p1 ∈ parents bn u)
    (e : List (String × String)) (h : InvE bn (P ++ [u]) e) :
    InvE bn (P ++ [u]) (setAdd e (p1, u)) := by
  have hrev : (u, p1) ∉ e := by
    intro hmem
    rcases h.1 _ hmem with ⟨w, hw, h1, _⟩ | ⟨w, hw, h1, _, _⟩ <;>
    · rcases List.mem_append.mp hw with hwP | hwu
      · exact hup (hicl _ hwP _ h1)
      · rw [List.mem_singleton] at hwu
        subst hwu
        exact hiru h1
  have hne : p1 ≠ u := fun h' => hiru (h' ▸ hp1)
  constructor
  · intro x hx
    rcases (setAdd_mem_iff _ _ _).mp hx with hxe | rfl
    · exact h.1 x hxe
    · exact Or.inl ⟨u, List.mem_append.mpr (Or.inr (List.mem_singleton_self u)),
        hp1, rfl⟩
  · intro a b hab hba
    rcases (setAdd_mem_iff _ _ _).mp hab with hab' | hab' <;>
      rcases (setAdd_mem_iff _ _ _).mp hba with hba' | hba'
    · exact h.2 a b hab' hba'
    · injection hba' with e1 e2
      subst e1
      subst e2
      exact hrev hab'
    · injection hab' with e1 e2
      subst e1
      subst e2
      exact hrev hba'
    · injection hab' with e1 e2
      subst e1
      subst e2
      injection hba' with e3 e4
      exact hne e3.symm

/-- Marrying two distinct co-parents of the current node preserves the
invariant: the guard `(p2, p1) not in e` rules out the reverse direction. -/
theorem marryStep_inv (bn : BN) (P : List String) (u : String)
    (p1 : String) (hp1 : p1 ∈ parents bn u)
    (p2 : String) (hp2 : p2 ∈ parents bn u)
    (e : List (String × String)) (h : InvE bn (P ++ [u]) e) :
    InvE bn (P ++ [u]) (marryStep p1 e p2) := by
  rw [marryStep]
  by_cases hg : p1 ≠ p2 ∧ (p2, p1) ∉ e
  · rw [if_pos hg]
    constructor
    · intro x hx
      rcases (setAdd_mem_iff _ _ _).mp hx with hxe | rfl
      · exact h.1 x hxe
      · exact Or.inr ⟨u, List.mem_append.mpr (Or.inr (List.mem_singleton_self u)),
          hp1, hp2, hg.1⟩
    · intro a b hab hba
      rcases (setAdd_mem_iff _ _ _).mp hab with hab' | hab' <;>
        rcases (setAdd_mem_iff _ _ _).mp hba with hba' | hba'
      · exact h.2 a b hab' hba'
      · injection hba' with e1 e2
        subst e1
        subst e2
        exact hg.2 hab'
      · injection hab' with e1 e2
        subst e1
        subst e2
        exact hg.2 hba'
      · injection hab' with e1 e2
        subst e1
        subst e2
        injection hba' with e3 e4
        exact hg.1 e3.symm
  · rw [if_neg hg]
    exact h

theorem momInner_fold_inv (bn : BN) (P : List String) (u : String)
    (p1 : String) (hp1 : p1 ∈ parents bn u) :
    ∀ (ps : List String), (∀ q ∈ ps, q ∈ parents bn u) →
      ∀ e, InvE bn (P ++ [u]) e →
        InvE bn (P ++ [u]) (ps.foldl (marryStep p1) e) := by
  intro ps
  induction ps with
  | nil => exact fun _ e h => h
  | cons q ps ih =>
    intro hps e h
    rw [List.foldl_cons]
    exact ih (fun r hr => hps r (List.mem_cons_of_mem _ hr)) _
      (marryStep_inv bn P u p1 hp1 q (hps q (List.mem_cons_self _ _)) e h)

theorem momNode_fold_inv (bn : BN) (P : List String) (u : String)
    (hup : u ∉ P) (hiru : u ∉ parents bn u)
    (hicl : ∀ w ∈ P, ∀ p ∈ parents bn w, p ∈ P) :
    ∀ (ps : List String), (∀ q ∈ ps, q ∈ parents bn u) →
      ∀ e, InvE bn (P ++ [u]) e →
        InvE bn (P ++ [u])
          (ps.foldl (fun e p1 => momInner bn u p1 (setAdd e (p1, u))) e) := by
  intro ps
  induction ps with
  | nil => exact fun _ e h => h
  | cons q ps ih =>
    intro hps e h
    rw [List.foldl_cons]
    refine ih (fun r hr => hps r (List.mem_cons_of_mem _ hr)) _ ?_
    rw [momInner]
    exact momInner_fold_inv bn P u q (hps q (List.mem_cons_self _ _))
      (parents bn u) (fun r hr => hr) _
      (setAddParent_inv bn P u hup hiru hicl q (hps q (List.mem_cons_self _ _)) e h)

theorem momInner_pairs (bn : BN) (u p1 : String) :
    ∀ (ps : List String) (e : List (String × String)) (p2 : String),
      p2 ∈ ps → p1 ≠ p2 →
      (p1, p2) ∈ ps.foldl (marryStep p1) e ∨
        (p2, p1) ∈ ps.foldl (marryStep p1) e := by
  intro ps
  induction ps with
  | nil => simp
  | cons q ps ih =>
    intro e p2 hp2 hne
    rw [List.foldl_cons]
    rcases List.mem_cons.mp hp2 with rfl | hmem
    · by_cases hg : p1 ≠ p2 ∧ (p2, p1) ∉ e
      · left
        apply foldl_mem_mono _ (marryStep_mono p1)
        rw [marryStep, if_pos hg, setAdd_mem_iff]
        exact Or.inr rfl
      · right
        apply foldl_mem_mono _ (marryStep_mono p1)
        apply marryStep_mono
        by_contra hc
        exact hg ⟨hne, hc⟩
    · exact ih _ p2 hmem hne

theorem momNode_parentEdges (bn : BN) (u : String) :
    ∀ (ps : List String) (e : List (String × String)) (p : String), p ∈ ps →
      (p, u) ∈ ps.foldl (fun e p1 => momInner bn u p1 (setAdd e (p1, u))) e := by
  intro ps
  induction ps with
  | nil => simp
  | cons q ps ih =>
    intro e p hp
    rw [List.foldl_cons]
    rcases List.mem_cons.mp hp with rfl | hmem
    · apply foldl_mem_mono _ (momNodeStep_mono bn u)
      apply momInner_mono
      rw [setAdd_mem_iff]
      exact Or.inr rfl
    · exact ih _ p hmem

theorem momNode_pairs (bn : BN) (u : String) :
    ∀ (ps : List String) (e : List (String × String)) (p1 p2 : String),
      p1 ∈ ps → p2 ∈ parents bn u → p1 ≠ p2 →
      (p1, p2) ∈ ps.foldl (fun e p1 => momInner bn u p1 (setAdd e (p1, u))) e ∨
        (p2, p1) ∈ ps.foldl (fun e p1 => momInner bn u p1 (setAdd e (p1, u))) e := by
  intro ps
  induction ps with
  | nil => simp
  | cons q ps ih =>
    intro e p1 p2 hp1 hp2 hne
    rw [List.foldl_cons]
    rcases List.mem_cons.mp hp1 with rfl | hmem
    · rcases momInner_pairs bn u p1 (parents bn u) (setAdd e (p1, u)) p2 hp2 hne
        with h | h
      · exact Or.inl (foldl_mem_mono _ (momNodeStep_mono bn u) _ _ _ h)
      · exact Or.inr (foldl_mem_mono _ (momNodeStep_mono bn u) _ _ _ h)
    · exact ih _ p1 p2 hmem hp2 hne

/-- The master induction over the node list: after folding the node loop of
`moralized_edges` across the remaining nodes `R`, the invariant holds, every
parent→child edge of every node is present, and every unordered pair of
distinct co-parents of every node is present in some direction. -/
theorem momFold_master (bn : BN) (hVnd : bn.V.Nodup)
    (htopo : ∀ u ∈ bn.V, ∀ p ∈ parents bn u, p ∈ bn.V ∧
      bn.V.indexOf p < bn.V.indexOf u) :
    ∀ (R P : List String), bn.V = P ++ R →
      ∀ e, InvE bn P e →
        (∀ u ∈ P, ∀ p ∈ parents bn u, (p, u) ∈ e) →
        (∀ u ∈ P, ∀ p1 ∈ parents bn u, ∀ p2 ∈ parents bn u, p1 ≠ p2 →
          (p1, p2) ∈ e ∨ (p2, p1) ∈ e) →
        InvE bn bn.V (R.foldl (fun e u => momNode bn u e) e) ∧
        (∀ u ∈ P ++ R, ∀ p ∈ parents bn u,
          (p, u) ∈ R.foldl (fun e u => momNode bn u e) e) ∧
        (∀ u ∈ P ++ R, ∀ p1 ∈ parents bn u, ∀ p2 ∈ parents bn u, p1 ≠ p2 →
          (p1, p2) ∈ R.foldl (fun e u => momNode bn u e) e ∨
          (p2, p1) ∈ R.foldl (fun e u => momNode bn u e) e) := by
  intro R
  induction R with
  | nil =>
    intro P hV e hInv hpe hpp
    rw [List.foldl_nil]
    refine ⟨InvE_mono bn P bn.V (fun x hx => by rw [hV]; simpa using hx) e hInv,
      ?_, ?_⟩
    · intro w hw
      rw [List.append_nil] at hw
      exact hpe w hw
    · intro w hw
      rw [List.append_nil] at hw
      exact hpp w hw
  | cons u R ih =>
    intro P hV e hInv hpe hpp
    rw [List.foldl_cons]
    have hVnd' : (P ++ u :: R).Nodup := hV ▸ hVnd
    have huV : u ∈ bn.V := by
      rw [hV]
      exact List.mem_append.mpr (Or.inr (List.mem_cons_self _ _))
    have hup : u ∉ P := by
      rw [List.nodup_append] at hVnd'
      intro hmem
      exact hVnd'.2.2 hmem (List.mem_cons_self _ _)
    have hiru : u ∉ parents bn u := by
      intro hmem
      have h := (htopo u huV u hmem).2
      omega
    have hicl : ∀ w ∈ P, ∀ p ∈ parents bn w, p ∈ P := by
      intro w hw p hp
      have hwV : w ∈ bn.V := by
        rw [hV]
        exact List.mem_append_left _ hw
      obtain ⟨hpV, hplt⟩ := htopo w hwV p hp
      rw [hV] at hpV hplt
      exact prefix_closed hVnd' hpV hw hplt
    have hInv1 : InvE bn (P ++ [u]) (momNode bn u e) := by
      rw [momNode]
      exact momNode_fold_inv bn P u hup hiru hicl (parents bn u)
        (fun r hr => hr) e
        (InvE_mono bn P (P ++ [u]) (fun x hx => List.mem_append_left _ hx) e hInv)
    have hpe1 : ∀ w ∈ P ++ [u], ∀ p ∈ parents bn w, (p, w) ∈ momNode bn u e := by
      intro w hw p hp
      rcases List.mem_append.mp hw with hwP | hwu
      · exact momNode_mono bn u e _ (hpe w hwP p hp)
      · rw [List.mem_singleton] at hwu
        subst hwu
        rw [momNode]
        exact momNode_parentEdges bn w (parents bn w) e p hp
    have hpp1 : ∀ w ∈ P ++ [u], ∀ p1 ∈ parents bn w, ∀ p2 ∈ parents bn w,
        p1 ≠ p2 → (p1, p2) ∈ momNode bn u e ∨ (p2, p1) ∈ momNode bn u e := by
      intro w hw p1 hp1 p2 hp2 hne
      rcases List.mem_append.mp hw with hwP | hwu
      · rcases hpp w hwP p1 hp1 p2 hp2 hne with h | h
        · exact Or.inl (momNode_mono bn u e _ h)
        · exact Or.inr (momNode_mono bn u e _ h)
      · rw [List.mem_singleton] at hwu
        subst hwu
        rw [momNode]
        exact momNode_pairs bn w (parents bn w) e p1 p2 hp1 hp2 hne
    have hV' : bn.V = (P ++ [u]) ++ R := by
      rw [hV, List.append_assoc, List.singleton_append]
    obtain ⟨hi1, hi2, hi3⟩ := ih (P ++ [u]) hV' (momNode bn u e) hInv1 hpe1 hpp1
    refine ⟨hi1, ?_, ?_⟩
    · intro w hw
      apply hi2 w
      rw [List.append_assoc, List.singleton_append]
      exact hw
    · intro w hw
      apply hi3 w
      rw [List.append_assoc, List.singleton_append]
      exact hw

/-- C4 (amended): under the data-model invariants (`V` duplicate-free and
topologically ordered, `parents` consistent with `E`), `moralized_edges()`
contains every original directed edge, and every unordered pair of distinct
parents of any rv is present in at least one direction and never in both;
but the parent-pair edges need not be *additional* to the original edges
(see `moralized_edges_counterexample`). -/
theorem moralized_edges_amended (bn : BN)
    (hVnd : bn.V.Nodup)
    (htopo : ∀ u ∈ bn.V, ∀ p ∈ parents bn u, p ∈ bn.V ∧
      bn.V.indexOf p < bn.V.indexOf u)
    (hcons : ∀ u ∈ bn.V, ∀ v ∈ childrenD bn u, v ∈ bn.V ∧ u ∈ parents bn v) :
    (∀ uv ∈ edgesList bn, uv ∈ moralized_edges bn) ∧
    (∀ u ∈ bn.V, ∀ p1 ∈ parents bn u, ∀ p2 ∈ parents bn u, p1 ≠ p2 →
      (p1, p2) ∈ moralized_edges bn ∨ (p2, p1) ∈ moralized_edges bn) ∧
    (∀ a b : String, (a, b) ∈ moralized_edges bn →
      (b, a) ∈ moralized_edges bn → False) := by
  obtain ⟨hinv, hpe, hpp⟩ := momFold_master bn hVnd htopo bn.V [] rfl []
    ⟨by simp, by simp⟩ (by simp) (by simp)
  refine ⟨?_, ?_, ?_⟩
  · intro uv huv
    rw [edgesList, List.mem_flatMap] at huv
    obtain ⟨w, hw, hmem⟩ := huv
    rw [List.mem_map] at hmem
    obtain ⟨x, hx, hpair⟩ := hmem
    subst hpair
    obtain ⟨hvV, hupar⟩ := hcons w hw x hx
    exact hpe x (by simpa using hvV) w hupar
  · intro u hu p1 hp1 p2 hp2 hne
    exact hpp u (by simpa using hu) p1 hp1 p2 hp2 hne
  · exact hinv.2

theorem moralized_edges_amended_witness :
    ("a", "c") ∈ moralized_edges cptExBN ∧
    (("a", "b") ∈ moralized_edges cptExBN ∨
      ("b", "a") ∈ moralized_edges cptExBN) ∧
    ¬(("a", "b") ∈ moralized_edges cptExBN ∧
      ("b", "a") ∈ moralized_edges cptExBN) :=
  ⟨(moralized_edges_amended cptExBN (by decide) (by decide) (by decide)).1
      ("a", "c") (by decide),
   (moralized_edges_amended cptExBN (by decide) (by decide) (by decide)).2.1
      "c" (by decide) "a" (by decide) "b" (by decide) (by decide),
   fun h => (moralized_edges_amended cptExBN (by decide) (by decide)
      (by decide)).2.2 "a" "b" h.1 h.2⟩

/-! ## C2: stride values -/

/-- Below 2^63 the int64 wrap is invisible: whenever the exact-arithmetic
reading `stride` returns a value smaller than 2^63, the bit-faithful
`stride64` returns the same value. -/
theorem int64OfNat_small (n : Nat) (h : n < 2 ^ 63) : int64OfNat n = (n : Int) := by
  have hm : n % 2 ^ 64 = n := Nat.mod_eq_of_lt (by omega)
  rw [int64OfNat, hm, if_pos h]

theorem stride64_agrees (bn : BN) (rv n : String) (k : Nat)
    (h : stride bn rv n = some k) (hk : k < 2 ^ 63) :
    stride64 bn rv n = some (k : Int) := by
  rw [stride] at h
  rw [stride64]
  by_cases hn : n = rv
  · rw [if_pos hn] at h ⊢
    have h1 : (1 : Nat) = k := Option.some.inj h
    rw [← h1]
    rfl
  · rw [if_neg hn] at h ⊢
    cases hio : (parents bn rv).indexOf? n with
    | none => rw [hio] at h; simp at h
    | some i =>
      rw [hio, Option.map_some'] at h
      have hk2 := Option.some.inj h
      rw [Option.map_some', hk2, int64OfNat_small k hk]

/-- Parent names `p0, …, p63` of the int64-overflow network below. -/
def wrapParents : List String := (List.range 64).map (fun k => "p" ++ toString k)

/-- A network whose rv `r` has 64 binary parents.  Querying the stride of
the last parent `p63` makes the program compute
`int(np.prod([2] * 64))`: the exact prefix cardinality product
`card(r) * Π card(parents[0..62]) = 2^64` overflows int64 and `np.prod`
wraps it to `0`. -/
def wrapBN : BN :=
  { V := "r" :: wrapParents
    E := []
    F := ("r", ⟨wrapParents, ["0", "1"], []⟩)
        :: wrapParents.map (fun p => (p, ⟨[], ["0", "1"], []⟩)) }

/-- C2 counterexample: in `wrapBN` the parent `p63` of `r` sits at 0-indexed
position 63, and the claimed value `card(r) * Π card(parents[0..62])`
equals `2^64`; but `stride(r, p63)` computes `int(np.prod([2] * 64))`,
whose int64 reduction wraps to `0`, so the program's result differs from
the claimed exact product. -/
theorem stride_wrap_counterexample :
    (parents wrapBN "r").indexOf? "p63" = some 63 ∧
    (card wrapBN "r" * (((parents wrapBN "r").take 63).map (card wrapBN)).prod
      = 2 ^ 64) ∧
    stride64 wrapBN "r" "p63" = some 0 ∧
    stride64 wrapBN "r" "p63" ≠
      some ((card wrapBN "r" *
        (((parents wrapBN "r").take 63).map (card wrapBN)).prod : Nat) : Int) :=
  ⟨by decide, by decide, by decide, by decide⟩

/-- C2 (amended): `stride(rv, rv) == 1`, and for a parent `p` first listed
at 0-indexed position `i` of `rv`'s parent list (with `p ≠ rv`, so that the
`n == rv` branch is not taken), `stride(rv, p)` is the int64-wrapped value
of `card(rv) * Π card(parents[0..i-1])` — the signed two's-complement
residue modulo 2^64 that `int(np.prod(...))` returns — which coincides with
the exact product of the original claim whenever that product is below
`2^63`. -/
theorem stride_wrap_spec (bn : BN) (rv p : String) (i : Nat)
    (hp : (parents bn rv).indexOf? p = some i) (hne : p ≠ rv) :
    stride64 bn rv rv = some 1 ∧
    stride64 bn rv p = some (int64OfNat
      (card bn rv * (((parents bn rv).take i).map (card bn)).prod)) ∧
    (card bn rv * (((parents bn rv).take i).map (card bn)).prod < 2 ^ 63 →
      stride64 bn rv p = some
        ((card bn rv * (((parents bn rv).take i).map (card bn)).prod : Nat) : Int)) := by
  have harg : ((card bn rv :: (parents bn rv).map (card bn)).take (i + 1)).prod
      = card bn rv * (((parents bn rv).take i).map (card bn)).prod := by
    rw [List.take_succ_cons, List.prod_cons, List.map_take]
  have hmain : stride64 bn rv p = some (int64OfNat
      (card bn rv * (((parents bn rv).take i).map (card bn)).prod)) := by
    rw [stride64, if_neg hne, hp, Option.map_some', harg]
  refine ⟨by simp [stride64], hmain, fun hlt => ?_⟩
  rw [hmain, int64OfNat_small _ hlt]

/-- Concrete three-node network used by several witnesses: `"c"` has
parents `["a", "b"]` with cards 2 and 3, and `card "c" = 2`. -/
def strideExBN : BN :=
  { V := ["a", "b", "c"]
    E := [("a", ["c"]), ("b", ["c"]), ("c", [])]
    F := [("a", ⟨[], ["a0", "a1"], []⟩),
          ("b", ⟨[], ["b0", "b1", "b2"], []⟩),
          ("c", ⟨["a", "b"], ["c0", "c1"], []⟩)] }

theorem stride_wrap_spec_witness :
    stride64 strideExBN "c" "c" = some 1 ∧
    stride64 strideExBN "c" "b" = some (int64OfNat
      (card strideExBN "c" *
        (((parents strideExBN "c").take 1).map (card strideExBN)).prod)) ∧
    stride64 strideExBN "c" "b" =
      some ((card strideExBN "c" *
        (((parents strideExBN "c").take 1).map (card strideExBN)).prod : Nat) : Int) :=
  have h := stride_wrap_spec strideExBN "c" "b" 1 (by decide) (by decide)
  ⟨h.1, h.2.1, h.2.2 (by decide)⟩

/-! ## C8: sentinel `-1` on failed lookups -/

/-- C8: `value_idx(rv, val)` returns the sentinel `-1` (after printing a
diagnostic) whenever `val` is not in `rv`'s domain list, and `node_idx(rv)`
returns `-1` whenever `rv` is not in `V`; neither raises. -/
theorem lookup_sentinel (bn : BN) (rv val : String) :
    (val ∉ values bn rv → value_idx bn rv val = -1) ∧
    (rv ∉ bn.V → node_idx bn rv = -1) := by
  constructor
  · intro hv
    have : (values bn rv).indexOf? val = none := by
      rw [List.indexOf?_eq_none_iff]
      intro x hx hxe
      exact hv ((eq_of_beq hxe) ▸ hx)
    simp [value_idx, this]
  · intro hn
    have : bn.V.indexOf? rv = none := by
      rw [List.indexOf?_eq_none_iff]
      intro x hx hxe
      exact hn ((eq_of_beq hxe) ▸ hx)
    simp [node_idx, this]

theorem lookup_sentinel_witness :
    value_idx strideExBN "a" "zz" = -1 ∧ node_idx strideExBN "nope" = -1 :=
  ⟨(lookup_sentinel strideExBN "a" "zz").1 (by decide),
   (lookup_sentinel strideExBN "nope" "x").2 (by decide)⟩

/-! ## C10: `has_edge` direction is opposite to `edges()` -/

/-- C10: when `v` is a key of `E` and a member of `V`, `has_edge(u, v)`
returns `true` exactly when `u` is in `v`'s children list, i.e. exactly when
`edges()` yields the pair `(v, u)` — the direction opposite to the
`(parent, child)` pairs `edges()` produces. -/
theorem has_edge_reversed (bn : BN) (u v : String) (ch : List String)
    (hk : bn.E.lookup v = some ch) (hv : v ∈ bn.V) :
    has_edge bn u v = some (decide (u ∈ childrenD bn v)) ∧
    (has_edge bn u v = some true ↔ (v, u) ∈ edgesList bn) := by
  have hch : childrenD bn v = ch := by simp [childrenD, hk]
  have hmemforms : (v, u) ∈ edgesList bn ↔ u ∈ ch := by
    simp only [edgesList, List.mem_flatMap, List.mem_map]
    constructor
    · rintro ⟨w, hw, x, hx, heq⟩
      injection heq with h1 h2
      subst h1; subst h2
      exact hch ▸ hx
    · intro hu
      exact ⟨v, hv, u, hch ▸ hu, rfl⟩
  refine ⟨by simp [has_edge, hk, hch], ?_⟩
  rw [has_edge, hk, Option.map_some']
  constructor
  · intro h
    rw [hmemforms]
    exact of_decide_eq_true (Option.some.inj h)
  · intro h
    rw [hmemforms] at h
    simp [h]

theorem has_edge_reversed_witness :
    has_edge strideExBN "c" "a" = some (decide ("c" ∈ childrenD strideExBN "a")) ∧
    (has_edge strideExBN "c" "a" = some true ↔
      ("a", "c") ∈ edgesList strideExBN) :=
  has_edge_reversed strideExBN "c" "a" ["c"] (by decide) (by decide)

/-! ## The mutable `BayesNet` object (C5, C9) -/

/-- A Python attribute slot holding either a bound instance or — as
`__init__` leaves `self.V` / `self.E` / `self.F` when `E is None` — the
built-in type object (`list` or `dict`) itself. -/
inductive PyAttr (α : Type) : Type
  | typeObj : PyAttr α
  | inst : α → PyAttr α
deriving Repr, DecidableEq

/-- The attribute state of a `BayesNet` object. -/
structure BNObj where
  V : PyAttr (List String)
  E : PyAttr (List (String × List String))
  F : PyAttr (List (String × FData))
deriving Repr, DecidableEq

/-- Python dict assignment `d[k] = v`: overwrite the existing binding or
append a new one. -/
def alistSet {β : Type} (l : List (String × β)) (k : String) (v : β) :
    List (String × β) :=
  if l.any (fun p => p.1 = k) then
    l.map (fun p => if p.1 = k then (k, v) else p)
  else l ++ [(k, v)]

/-- Method `set_structure(edge_dict, value_dict)`: `V = topsort(edge_dict)`,
`E = edge_dict`, and for each rv an `F` record whose parents are the nodes
whose children list contains it.  `topsort` lives in `neuroBN/utils` (not
among the sources) and is passed as a parameter; `value_dict[rv]` raises
`KeyError` when missing. -/
def set_structure (ts : List (String × List String) → List String)
    (edge_dict : List (String × List String))
    (value_dict : List (String × List String)) : Except String BNObj := do
  let V := ts edge_dict
  let F ← V.mapM (fun rv =>
    match value_dict.lookup rv with
    | none => Except.error ("KeyError: " ++ rv)
    | some vals => Except.ok (rv,
        (⟨V.filter (fun p => rv ∈ (edge_dict.lookup p).getD []), vals, []⟩ : FData)))
  .ok ⟨.inst V, .inst edge_dict, .inst F⟩

/-- Constructor `__init__(E, value_dict)`: when `E` is given, assert `value_dict` and run
`set_structure`; when `E is None`, bind `self.V = list`, `self.E = dict`,
`self.F = dict` — the built-in type objects, not fresh containers. -/
def bnInit (ts : List (String × List String) → List String)
    (E : Option (List (String × List String)))
    (value_dict : Option (List (String × List String))) : Except String BNObj :=
  match E with
  | some edgeDict =>
    match value_dict with
    | none => .error "AssertionError: Must set values if E is set."
    | some vd => set_structure ts edgeDict vd
  | none => .ok ⟨.typeObj, .typeObj, .typeObj⟩

/-- Method `has_node(rv)`: `rv in self.V`; `rv in list` (the type object) raises
`TypeError`. -/
def hasNodeO (s : BNObj) (rv : String) : Except String Bool :=
  match s.V with
  | .typeObj => .error "TypeError: argument of type type is not iterable"
  | .inst v => .ok (rv ∈ v)

/-- Method `add_node(rv, values=None)`: `self.V.append(rv)` then
`self.F[rv] = {'cpt': [], 'parents': [], 'values': values or []}`.
Note that `self.E` is not touched.  On the `E is None` initial state the
first statement is `list.append(rv)`, which raises `TypeError`. -/
def addNodeO (s : BNObj) (rv : String) (values : Option (List String)) :
    Except String BNObj :=
  match s.V with
  | .typeObj => .error "TypeError: unbound method append"
  | .inst v =>
    match s.F with
    | .typeObj => .error "TypeError: type object does not support item assignment"
    | .inst f =>
      .ok ⟨.inst (v ++ [rv]), s.E, .inst (alistSet f rv ⟨[], values.getD [], []⟩)⟩

/-- Method `add_edge(u, v)`: auto-create absent endpoints via `add_node`, then
`self.E[u].append(v)` — which raises `KeyError` whenever `u` is not already
a key of `E`, because `add_node` never registers nodes in `E` — then
`self.V = topsort(self.E)` with the external `topsort` as a parameter. -/
def addEdgeO (ts : List (String × List String) → List String)
    (s : BNObj) (u v : String) : Except String BNObj := do
  let hu ← hasNodeO s u
  let s ← if hu then pure s else addNodeO s u none
  let hv ← hasNodeO s v
  let s ← if hv then pure s else addNodeO s v none
  match s.E with
  | .typeObj => .error "TypeError: type object does not support item assignment"
  | .inst ed =>
    match ed.lookup u with
    | none => .error ("KeyError: " ++ u)
    | some ch =>
      let ed2 := alistSet ed u (ch ++ [v])
      .ok ⟨.inst (ts ed2), .inst ed2, s.F⟩

/-- C9: constructing a `BayesNet` with `E = None` binds `V`, `E` and `F` to
the built-in type objects, so every subsequent `add_node` (and `add_edge`)
on such an instance raises `TypeError` instead of appending to an empty
network. -/
theorem init_none_binds_type_objects
    (ts : List (String × List String) → List String)
    (vd : Option (List (String × List String))) :
    bnInit ts none vd = .ok ⟨.typeObj, .typeObj, .typeObj⟩ ∧
    (∀ (rv : String) (values : Option (List String)),
      addNodeO ⟨.typeObj, .typeObj, .typeObj⟩ rv values
        = .error "TypeError: unbound method append") ∧
    (∀ u v : String, addEdgeO ts ⟨.typeObj, .typeObj, .typeObj⟩ u v
        = .error "TypeError: argument of type type is not iterable") :=
  ⟨rfl, fun _ _ => rfl, fun _ _ => rfl⟩

/-- C5 (failing run): on a well-formed empty network, `add_edge("a", "b")`
raises `KeyError: a` — `add_node` auto-creates the endpoints in `V` and `F`
but never registers them in `E`, so `self.E[u].append(v)` fails whenever `u`
was previously absent, contradicting the claim that such calls succeed. -/
theorem add_edge_keyerror (ts : List (String × List String) → List String) :
    addEdgeO ts ⟨.inst [], .inst [], .inst []⟩ "a" "b"
      = .error "KeyError: a" := rfl

/-! ## C6: the `map_ve_e` orchestration -/

/-- Modelled from the spec: the `Factorization` class
(`neuroBN/classes/factorization.py` is not among the sources), reduced to
the four operations `map_ve_e` uses — evidence reduction (the `-=`
operator), max-product elimination (the `//=` operator), `traceback_map()`,
and the `cpt` table of `consolidate()` — as abstract operations on an
abstract state type. -/
structure FactorizationOps (Φ : Type) where
  reduceEv : Φ → String × String → Φ
  elim : Φ → String → Φ
  tracebackMap : Φ → List (String × String)
  consolidateCpt : Φ → List Rat

/-- Python 2 `round(x, 5)`: round half away from zero at 5 decimal
digits. -/
def round5 (q : Rat) : Rat :=
  if q ≥ 0 then ((⌊q * 100000 + 1/2⌋ : Int) : Rat) / 100000
  else -(((⌊-q * 100000 + 1/2⌋ : Int) : Rat) / 100000)

/-- The four shapes of `map_ve_e`'s return value, by `prob` and `target`.
`max_assignment[target]` is a dict lookup, kept as an `Option`. -/
inductive MapResult : Type
  | probAssign : Rat → List (String × String) → MapResult
  | probTarget : Rat → Option String → MapResult
  | assign : List (String × String) → MapResult
  | targetVal : Option String → MapResult
deriving Repr, DecidableEq

/-- The evidence-processing loop of `map_ve_e`:
`for E, e in evidence.items(): _phi -= (E, e); order.remove(E)`, threading
the pair (factorization state, elimination order).  `list.remove` removes
the first occurrence (and raises `ValueError` for an absent key — evidence
over network variables, as in the claim, never hits that path; `erase` is a
no-op there). -/
def evLoop {Φ : Type} (ops : FactorizationOps Φ)
    (st : Φ × List String) (evidence : List (String × String)) :
    Φ × List String :=
  evidence.foldl (fun st Ee => (ops.reduceEv st.1 Ee, st.2.erase Ee.1)) st

/-- The factorization state after `map_ve_e`'s two loops: evidence
reduction over the evidence pairs, then `_phi //= var` over the remaining
elimination order (initially `copy(list(bn.nodes()))`, i.e. `V`). -/
def mapVePhi {Φ : Type} (ops : FactorizationOps Φ) (init : BN → Φ)
    (bn : BN) (evidence : List (String × String)) : Φ :=
  let st := evLoop ops (init bn, bn.V) evidence
  st.2.foldl ops.elim st.1

/-- Function `map_ve_e(bn, evidence, target, prob)`. -/
def map_ve_e {Φ : Type} (ops : FactorizationOps Φ) (init : BN → Φ)
    (bn : BN) (evidence : List (String × String)) (target : Option String)
    (prob : Bool) : MapResult :=
  let phi := mapVePhi ops init bn evidence
  let maxAssignment := ops.tracebackMap phi
  if prob then
    let maxProb := round5 ((ops.consolidateCpt phi).headD 0)
    match target with
    | some t => .probTarget maxProb (maxAssignment.lookup t)
    | none => .probAssign maxProb maxAssignment
  else
    match target with
    | some t => .targetVal (maxAssignment.lookup t)
    | none => .assign maxAssignment

/-- Operation-log instantiation of the abstract factorization: each
operation appends a tag, making the order of reductions and eliminations
observable. -/
inductive PhiOp : Type
  | reduce : String × String → PhiOp
  | elim : String → PhiOp
deriving Repr, DecidableEq

def traceOps : FactorizationOps (List PhiOp) :=
  { reduceEv := fun l Ee => l ++ [.reduce Ee]
    elim := fun l v => l ++ [.elim v]
    tracebackMap := fun _ => []
    consolidateCpt := fun _ => [] }

theorem foldl_erase_eq_filter :
    ∀ (ks V : List String), V.Nodup →
      ks.foldl (fun o k => o.erase k) V
        = V.filter (fun v => decide (v ∉ ks)) := by
  intro ks
  induction ks with
  | nil =>
    intro V _
    simp
  | cons k ks ih =>
    intro V hnd
    rw [List.foldl_cons, ih _ ((hnd.erase k)), List.Nodup.erase_eq_filter hnd,
      List.filter_filter]
    apply List.filter_congr
    intro x hx
    simp only [List.mem_cons, decide_not]
    rcases Decidable.em (x = k) with rfl | hne
    · simp
    · simp [hne]

theorem evLoop_snd {Φ : Type} (ops : FactorizationOps Φ) :
    ∀ (evidence : List (String × String)) (st : Φ × List String),
      (evLoop ops st evidence).2
        = evidence.foldl (fun o Ee => o.erase Ee.1) st.2 := by
  intro ev
  induction ev with
  | nil => intro st; rfl
  | cons x ev ih =>
    intro st
    rw [evLoop, List.foldl_cons, List.foldl_cons, ← evLoop]
    exact ih _

theorem evLoop_fst {Φ : Type} (ops : FactorizationOps Φ) :
    ∀ (evidence : List (String × String)) (st : Φ × List String),
      (evLoop ops st evidence).1
        = evidence.foldl (fun φ Ee => ops.reduceEv φ Ee) st.1 := by
  intro ev
  induction ev with
  | nil => intro st; rfl
  | cons x ev ih =>
    intro st
    rw [evLoop, List.foldl_cons, List.foldl_cons, ← evLoop]
    exact ih _

theorem foldl_reduce_trace :
    ∀ (evidence : List (String × String)) (l : List PhiOp),
      evidence.foldl (fun φ Ee => traceOps.reduceEv φ Ee) l
        = l ++ evidence.map PhiOp.reduce := by
  intro ev
  induction ev with
  | nil => intro l; simp
  | cons x ev ih =>
    intro l
    rw [List.foldl_cons, ih]
    simp [traceOps]

theorem foldl_elim_trace :
    ∀ (order : List String) (l : List PhiOp),
      order.foldl traceOps.elim l = l ++ order.map PhiOp.elim := by
  intro order
  induction order with
  | nil => intro l; simp
  | cons v order ih =>
    intro l
    rw [List.foldl_cons, ih]
    simp [traceOps]

/-- C6: (1) for any factorization backend, the elimination order used by
`map_ve_e` is the network's topological node order `V` with the evidence
variables removed; (2) in the operation log, every evidence reduction
precedes every elimination, and the eliminations follow that filtered
order; (3) when `prob` is requested, the result is the head entry of the
consolidated factor's table rounded to 5 decimal places, paired with the
traceback assignment — restricted to the target variable when one is
given. -/
theorem map_ve_e_spec (bn : BN) (hnd : bn.V.Nodup)
    (evidence : List (String × String)) :
    (∀ {Φ : Type} (ops : FactorizationOps Φ) (init : BN → Φ),
      (evLoop ops (init bn, bn.V) evidence).2
        = bn.V.filter (fun v => decide (v ∉ evidence.map Prod.fst))) ∧
    (mapVePhi traceOps (fun _ => []) bn evidence
      = evidence.map PhiOp.reduce ++
        (bn.V.filter (fun v => decide (v ∉ evidence.map Prod.fst))).map
          PhiOp.elim) ∧
    (∀ {Φ : Type} (ops : FactorizationOps Φ) (init : BN → Φ)
      (p : Rat) (rest : List Rat),
      ops.consolidateCpt (mapVePhi ops init bn evidence) = p :: rest →
      map_ve_e ops init bn evidence none true
        = .probAssign (round5 p)
            (ops.tracebackMap (mapVePhi ops init bn evidence)) ∧
      ∀ t : String, map_ve_e ops init bn evidence (some t) true
        = .probTarget (round5 p)
            ((ops.tracebackMap (mapVePhi ops init bn evidence)).lookup t)) := by
  have horder : ∀ {Φ : Type} (ops : FactorizationOps Φ) (init : BN → Φ),
      (evLoop ops (init bn, bn.V) evidence).2
        = bn.V.filter (fun v => decide (v ∉ evidence.map Prod.fst)) := by
    intro Φ ops init
    rw [evLoop_snd]
    have hfm : evidence.foldl (fun o Ee => o.erase Ee.1) bn.V
        = (evidence.map Prod.fst).foldl (fun o k => o.erase k) bn.V := by
      rw [List.foldl_map]
    rw [hfm, foldl_erase_eq_filter _ _ hnd]
  refine ⟨horder, ?_, ?_⟩
  · rw [mapVePhi]
    have h2 := horder traceOps (fun _ => [])
    rw [h2, evLoop_fst traceOps, foldl_reduce_trace, foldl_elim_trace]
    simp
  · intro Φ ops init p rest hc
    constructor
    · rw [map_ve_e]
      simp only [hc, List.headD_cons, if_true]
    · intro t
      rw [map_ve_e]
      simp only [hc, List.headD_cons, if_true]

/-- A constant factorization backend used to instantiate `map_ve_e_spec`
concretely. -/
def constPhiOps : FactorizationOps Unit :=
  { reduceEv := fun _ _ => ()
    elim := fun _ _ => ()
    tracebackMap := fun _ => [("a", "a0"), ("b", "b0"), ("c", "c0")]
    consolidateCpt := fun _ => [3/5] }

theorem map_ve_e_spec_witness :
    (evLoop constPhiOps ((), strideExBN.V) [("b", "b0")]).2 = ["a", "c"] ∧
    map_ve_e constPhiOps (fun _ => ()) strideExBN [("b", "b0")] none true
      = .probAssign (round5 (3/5)) [("a", "a0"), ("b", "b0"), ("c", "c0")] ∧
    map_ve_e constPhiOps (fun _ => ()) strideExBN [("b", "b0")] (some "c") true
      = .probTarget (round5 (3/5)) (some "c0") := by
  have h := map_ve_e_spec strideExBN (by decide) [("b", "b0")]
  have h3 := h.2.2 constPhiOps (fun _ => ()) (3/5) [] rfl
  refine ⟨?_, h3.1, ?_⟩
  · rw [h.1 constPhiOps (fun _ => ())]
    decide
  · rw [h3.2 "c"]
    rfl

/-! ## C7: `map_opt_e` -/

/-- The names bound at module level in `map_exact.py`: its imports and its
two function definitions.  There is no `pulp` import, and `node_var_dict` /
`weight_list` are never assigned anywhere. -/
def mapExactModuleNames : List String :=
  ["copy", "np", "Factor", "Factorization", "map_ve_e", "map_opt_e"]

/-- Python global-name resolution inside `map_opt_e`: an unbound name
raises `NameError`. -/
def resolveGlobal (n : String) : Except String Unit :=
  if n ∈ mapExactModuleNames then .ok () else .error ("NameError: " ++ n)

/-- Function `map_opt_e(bn, evidence)`: after the evidence assert, its first
statement `model = LpProblem("MAP Inference", LpMinimize)` must resolve the
globals `LpProblem` and `LpMinimize`; neither is bound in the module, so the
call raises `NameError` before any decision variable or constraint is
created (and even past that point, the first loop iteration references the
unbound `node_var_dict` and `weight_list`).  The rest of the body — in
particular the constraint construction of lines 137-154, which as written
adds *equality* constraints over `f_rv2.value_indices(rv2, value)` and
iterates `bn.children(rv)` with the stale loop variable `rv` — is
unreachable. -/
def map_opt_e (bn : BN) (evidence : List (String × String)) :
    Except String (List (String × Rat)) := do
  resolveGlobal "LpProblem"
  resolveGlobal "LpMinimize"
  resolveGlobal "LpVariable"
  resolveGlobal "LpInteger"
  resolveGlobal "node_var_dict"
  resolveGlobal "weight_list"
  .error "unreachable: the statements above raise NameError"

/-- C7 (failing run): `map_opt_e` raises `NameError` on every input before
building any constraint, because `LpProblem` is unbound in `map_exact.py`;
the claimed ≤-consistency constraints are never constructed. -/
theorem map_opt_e_nameerror (bn : BN) (evidence : List (String × String)) :
    map_opt_e bn evidence = .error "NameError: LpProblem" := rfl

end NeuroBN
